import Mathlib

/-!
# Verification of the `got` theme/template resolution engine

A shallow embedding of the Go package `got` (theme-namespaced template
resolution, assembly and caching).  Strings are modelled as `List Char`;
Go maps that are consulted by the algorithms are modelled as association
lists; the mutable theme graph is modelled as an indexed world of theme
states; recursion that is unbounded in Go (dependency resolution, the
parent-cascade of configuration changes) is modelled with explicit fuel,
`none` standing for non-termination.
-/

namespace Got

/-- A Go string, modelled as its list of characters. -/
abbrev Str := List Char

/-- Characters matched by the RE2 class `\s` (used by `commentRe`,
`templateRe` and `defineRe`): tab, newline, form feed, carriage return
and space. -/
def reSpace (c : Char) : Bool :=
  c = '\t' || c = '\n' || c = '\x0c' || c = '\r' || c = ' '

/-- Characters treated as white space by Go's `unicode.IsSpace` (used by
`strings.TrimSpace`), restricted to the Latin-1 range. -/
def goSpace (c : Char) : Bool :=
  reSpace c || c = '\x0b' || c = '\x85' || c = '\xa0'

/-- Go `strings.TrimSpace`: drop white space from both ends. -/
def trimSpace (s : Str) : Str :=
  ((s.dropWhile goSpace).reverse.dropWhile goSpace).reverse

/-! ## The leading declaration marker (`commentRe = ^\s*<!--(.*?)-->`)

`newTemplate` matches `commentRe` against the raw content.  Since `^` is
anchored and `.` does not cross newlines in RE2, the regex matches iff,
after a (maximal) run of `\s` characters, the content continues with
`<!--`, then a newline-free segment, then the first following `-->`.
`scanEnd` performs the lazy `(.*?)-->` part. -/

/-- Scan for the first occurrence of `-->`; the scanned characters may
not include a newline (RE2 `.`).  Returns the captured segment and the
remainder after `-->`. -/
def scanEnd : Str → Option (Str × Str)
  | [] => none
  | c :: cs =>
    if (c :: cs).take 3 = ['-', '-', '>'] then some ([], (c :: cs).drop 3)
    else if c = '\n' then none
    else match scanEnd cs with
      | some (cap, r) => some (c :: cap, r)
      | none => none

/-- `markerFree l` holds iff `-->` occurs nowhere in `l`. -/
def markerFree : Str → Bool
  | [] => true
  | c :: cs =>
    if (c :: cs).take 3 = ['-', '-', '>'] then false else markerFree cs

/-- Match `commentRe` (`^\s*<!--(.*?)-->`) against `content`, returning
the capture and the text after the match. -/
def matchComment (content : Str) : Option (Str × Str) :=
  let r := content.dropWhile reSpace
  if r.take 4 = ['<', '!', '-', '-'] then scanEnd (r.drop 4) else none

/-- The `Template` record (`tmpl` in the source): theme, logical name,
declared path and content. -/
structure Tmpl where
  theme : Str
  name : Str
  path : Str
  content : Str
deriving DecidableEq, Repr

/-- `newTemplate` from the source: if the raw content matches
`commentRe`, the trimmed capture becomes the path and the (single,
leading) match is removed from the content; otherwise the path defaults
to the name and the content is unchanged. -/
def newTemplate (theme name content : Str) : Tmpl :=
  match matchComment content with
  | some (cap, rest) => ⟨theme, name, trimSpace cap, rest⟩
  | none => ⟨theme, name, name, content⟩

/-! ### Lemmas about the marker scan -/

theorem markerFree_cons (c : Char) (p : Str) (h : markerFree (c :: p) = true) :
    (c :: p).take 3 ≠ ['-', '-', '>'] ∧ markerFree p = true := by
  rw [markerFree] at h
  by_cases h3 : (c :: p).take 3 = ['-', '-', '>']
  · rw [if_pos h3] at h; exact absurd h (by simp)
  · rw [if_neg h3] at h; exact ⟨h3, h⟩

theorem scanEnd_append (p rest : Str) (hm : markerFree p = true)
    (hn : ∀ c ∈ p, c ≠ '\n') :
    scanEnd (p ++ '-' :: '-' :: '>' :: rest) = some (p, rest) := by
  induction p with
  | nil => simp [scanEnd]
  | cons c p ih =>
    obtain ⟨hmc, hm'⟩ := markerFree_cons c p hm
    have hn' : ∀ x ∈ p, x ≠ '\n' := fun x hx => hn x (List.mem_cons_of_mem _ hx)
    have hcn : c ≠ '\n' := hn c (List.mem_cons_self c p)
    show scanEnd (c :: (p ++ '-' :: '-' :: '>' :: rest)) = some (c :: p, rest)
    rw [scanEnd]
    have hnot : ¬((c :: (p ++ '-' :: '-' :: '>' :: rest)).take 3 = ['-', '-', '>']) := by
      intro h
      rcases p with _ | ⟨d, _ | ⟨e, p⟩⟩
      · have h' : [c, '-', '-'] = ['-', '-', '>'] := h
        simp at h'
      · have h' : [c, d, '-'] = ['-', '-', '>'] := h
        simp at h'
      · have h' : [c, d, e] = ['-', '-', '>'] := h
        obtain ⟨rfl, rfl, rfl⟩ : c = '-' ∧ d = '-' ∧ e = '>' := by simpa using h'
        exact hmc rfl
    rw [if_neg hnot, if_neg hcn, ih hm' hn']

theorem scanEnd_some (l cap r : Str) (h : scanEnd l = some (cap, r)) :
    l = cap ++ '-' :: '-' :: '>' :: r ∧ markerFree cap = true ∧
      ∀ c ∈ cap, c ≠ '\n' := by
  induction l generalizing cap r with
  | nil => simp [scanEnd] at h
  | cons c cs ih =>
    rw [scanEnd] at h
    by_cases h3 : (c :: cs).take 3 = ['-', '-', '>']
    · rw [if_pos h3] at h
      obtain ⟨rfl, rfl⟩ : ([] : Str) = cap ∧ (c :: cs).drop 3 = r := by
        simpa using h
      refine ⟨?_, by simp [markerFree], by simp⟩
      have htd := (c :: cs).take_append_drop 3
      rw [h3] at htd
      simpa using htd.symm
    · rw [if_neg h3] at h
      by_cases hcn : c = '\n'
      · rw [if_pos hcn] at h; exact absurd h (by simp)
      · rw [if_neg hcn] at h
        rcases hse : scanEnd cs with _ | ⟨cap', r'⟩ <;> rw [hse] at h
        · exact absurd h (by simp)
        · obtain ⟨rfl, rfl⟩ : c :: cap' = cap ∧ r' = r := by simpa using h
          obtain ⟨hl, hmf, hnl⟩ := ih _ _ hse
          refine ⟨by simp [hl], ?_, ?_⟩
          · rw [markerFree]
            have hne : ¬((c :: cap').take 3 = ['-', '-', '>']) := by
              intro hx
              rcases cap' with _ | ⟨d, _ | ⟨e, p⟩⟩
              · have h' : [c] = ['-', '-', '>'] := hx
                simp at h'
              · have h' : [c, d] = ['-', '-', '>'] := hx
                simp at h'
              · have h' : [c, d, e] = ['-', '-', '>'] := hx
                obtain ⟨rfl, rfl, rfl⟩ : c = '-' ∧ d = '-' ∧ e = '>' := by
                  simpa using h'
                exact h3 (by rw [hl]; rfl)
            rw [if_neg hne]; exact hmf
          · intro x hx
            rcases List.mem_cons.1 hx with rfl | hx
            · exact hcn
            · exact hnl x hx

theorem dropWhile_space_append (ws l : Str) (hws : ∀ c ∈ ws, reSpace c = true)
    (hl : reSpace l.headI = false) (hne : l ≠ []) :
    (ws ++ l).dropWhile reSpace = l := by
  induction ws with
  | nil =>
    rcases l with _ | ⟨c, cs⟩
    · simp at hne
    · simp only [List.headI] at hl
      simp [List.dropWhile, hl]
  | cons w ws ih =>
    have hw : reSpace w = true := hws w (List.mem_cons_self w ws)
    simp only [List.cons_append, List.dropWhile, hw]
    exact ih fun c hc => hws c (List.mem_cons_of_mem _ hc)

/-- Characters of `takeWhile` satisfy the predicate (specialised form). -/
theorem mem_takeWhile_reSpace (l : Str) :
    ∀ c ∈ l.takeWhile reSpace, reSpace c = true := by
  intro c hc
  exact List.mem_takeWhile_imp hc

/-- Shorthand: the character list of a string literal. -/
def s2l (s : String) : Str := s.data

theorem matchComment_eq_some (ws p rest : Str)
    (hws : ∀ c ∈ ws, reSpace c = true) (hn : ∀ c ∈ p, c ≠ '\n')
    (hm : markerFree p = true) :
    matchComment (ws ++ '<' :: '!' :: '-' :: '-' :: (p ++ '-' :: '-' :: '>' :: rest))
      = some (p, rest) := by
  unfold matchComment
  rw [dropWhile_space_append ws _ hws (by rfl) (by simp)]
  have h4 : ('<' :: '!' :: '-' :: '-' :: (p ++ '-' :: '-' :: '>' :: rest)).take 4
      = ['<', '!', '-', '-'] := rfl
  rw [if_pos h4]
  exact scanEnd_append p rest hm hn

theorem matchComment_some (content cap rest : Str)
    (h : matchComment content = some (cap, rest)) :
    ∃ ws, (∀ c ∈ ws, reSpace c = true) ∧ (∀ c ∈ cap, c ≠ '\n') ∧
      markerFree cap = true ∧
      content = ws ++ '<' :: '!' :: '-' :: '-' :: (cap ++ '-' :: '-' :: '>' :: rest) := by
  unfold matchComment at h
  by_cases h4 : (content.dropWhile reSpace).take 4 = ['<', '!', '-', '-']
  · rw [if_pos h4] at h
    obtain ⟨hl, hmf, hnl⟩ := scanEnd_some _ _ _ h
    refine ⟨content.takeWhile reSpace, mem_takeWhile_reSpace content, hnl, hmf, ?_⟩
    have h1 : content = content.takeWhile reSpace ++ content.dropWhile reSpace :=
      (content.takeWhile_append_dropWhile (p := reSpace)).symm
    have h2 : content.dropWhile reSpace
        = (content.dropWhile reSpace).take 4 ++ (content.dropWhile reSpace).drop 4 :=
      ((content.dropWhile reSpace).take_append_drop 4).symm
    conv_lhs => rw [h1, h2, h4, hl]
    simp
  · rw [if_neg h4] at h; cases h

/-- C4: a Template Record built from raw content that starts (after
optional `\s` white space) with a single-line `<!-- P -->` marker gets
`path = trimSpace P` and content with exactly that leading marker match
removed; any content admitting no such leading single-line marker
decomposition (in particular a marker spanning several lines, or one
not at the start) yields `path = name` and unchanged content. -/
theorem C4_newTemplate_marker (theme name content : Str) :
    (∀ ws p rest, (∀ c ∈ ws, reSpace c = true) → (∀ c ∈ p, c ≠ '\n') →
        markerFree p = true →
        content = ws ++ '<' :: '!' :: '-' :: '-' :: (p ++ '-' :: '-' :: '>' :: rest) →
        newTemplate theme name content = ⟨theme, name, trimSpace p, rest⟩) ∧
    ((¬ ∃ ws p rest, (∀ c ∈ ws, reSpace c = true) ∧ (∀ c ∈ p, c ≠ '\n') ∧
        markerFree p = true ∧
        content = ws ++ '<' :: '!' :: '-' :: '-' :: (p ++ '-' :: '-' :: '>' :: rest)) →
        newTemplate theme name content = ⟨theme, name, name, content⟩) := by
  constructor
  · intro ws p rest hws hn hm hc
    subst hc
    unfold newTemplate
    rw [matchComment_eq_some ws p rest hws hn hm]
  · intro hno
    unfold newTemplate
    rcases hmc : matchComment content with _ | ⟨cap, rest⟩
    · rfl
    · exact absurd (matchComment_some content cap rest hmc)
        (by push_neg at hno ⊢; intro ws h1 h2 h3; exact hno ws cap rest h1 h2 h3)

/-- Witness for C4: the record built from `"<!-- b -->BODY"` has path
`"b"` and content `"BODY"`, via the theorem. -/
theorem C4_newTemplate_marker_witness :
    newTemplate (s2l "t") (s2l "child") (s2l "<!-- b -->BODY")
      = ⟨s2l "t", s2l "child", s2l "b", s2l "BODY"⟩ := by
  have h := (C4_newTemplate_marker (s2l "t") (s2l "child")
      (s2l "<!-- b -->BODY")).1 [] (s2l " b ") (s2l "BODY")
    (by decide) (by decide) (by decide) (by decide)
  exact h.trans (by decide)

/-! ## Go error values

`GoErr` models the error values that flow through the package: the
`ErrTemplateNotFound` sentinel, opaque storage failures (`external`),
the `fmt.Errorf(..., %w, err)` wrappers used by `Theme.find`,
`Theme.buildTemplate` and `StoreMemory.Find`, and `errors.Join`.
`isNotFound` models `errors.Is(err, ErrTemplateNotFound)`. -/

inductive GoErr where
  | notFound : GoErr
  | external : Nat → GoErr
  | wrapFind : Str → Str → GoErr → GoErr
  | wrapMissing : Str → Str → GoErr → GoErr
  | wrapMem : Str → Str → GoErr → GoErr
  | joinE : GoErr → GoErr → GoErr
deriving DecidableEq, Repr

/-- `errors.Is(e, ErrTemplateNotFound)`: unwraps `%w` wrappers and both
sides of `errors.Join`. -/
def isNotFound : GoErr → Bool
  | .notFound => true
  | .external _ => false
  | .wrapFind _ _ e => isNotFound e
  | .wrapMissing _ _ e => isNotFound e
  | .wrapMem _ _ e => isNotFound e
  | .joinE a b => isNotFound a || isNotFound b

/-- A `Theme` as seen by a single lookup/resolution pass: its name, its
storage (a function from theme name and template name to a record or an
error) and the optional parent theme. -/
inductive ThemeR where
  | mk (name : Str) (storage : Str → Str → Except GoErr Tmpl)
      (parent : Option ThemeR)

def ThemeR.name : ThemeR → Str
  | .mk tn _ _ => tn

def ThemeR.storage : ThemeR → (Str → Str → Except GoErr Tmpl)
  | .mk _ st _ => st

def ThemeR.parent : ThemeR → Option ThemeR
  | .mk _ _ par => par

/-- `Theme.find`: query the own storage; on a NotFound-kind error fall
back to the parent (if any); every failure is wrapped with the
originating theme and name (`fmt.Errorf("theme: failed to find template
%s/%s: %w", ...)`), a failed fallback joining both causes.  The second
component counts how many `storage.Find` invocations the call made. -/
def ThemeR.find : ThemeR → Str → Except GoErr Tmpl × Nat
  | .mk tn st par, name =>
    match st tn name with
    | .ok item => (.ok item, 1)
    | .error err =>
      if isNotFound err then
        match par with
        | some p =>
          match p.find name with
          | (.ok item, n) => (.ok item, n + 1)
          | (.error err1, n) =>
            (.error (.wrapFind tn name (.joinE err err1)), n + 1)
        | none => (.error (.wrapFind tn name err), 1)
      else (.error (.wrapFind tn name err), 1)

/-- `errors.Is` still identifies the NotFound kind through the wrap
added by `Theme.find`. -/
theorem isNotFound_wrapFind (tn n : Str) (e : GoErr) :
    isNotFound (.wrapFind tn n e) = isNotFound e := rfl

/-- C3 (amended): when the own storage fails with a non-NotFound error,
`Theme.find` returns immediately — exactly one storage probe, and the
result does not depend on the parent at all — but the error is not the
identical value: it is wrapped once with the originating theme and name
(`errors.Is` still sees through the wrap to the original cause). -/
theorem C3_find_non_notFound (tn name : Str)
    (st : Str → Str → Except GoErr Tmpl) (par : Option ThemeR) (e : GoErr)
    (hst : st tn name = .error e) (hnf : isNotFound e = false) :
    ThemeR.find (.mk tn st par) name = (.error (.wrapFind tn name e), 1) ∧
      (∀ par', ThemeR.find (.mk tn st par) name
        = ThemeR.find (.mk tn st par') name) ∧
      isNotFound (.wrapFind tn name e) = isNotFound e := by
  refine ⟨?_, ?_, rfl⟩
  · rw [ThemeR.find, hst]
    simp [hnf]
  · intro par'
    rw [ThemeR.find, ThemeR.find, hst]
    simp [hnf]

/-- Witness for C3: a concrete theme whose storage fails with an opaque
error; the parent is never consulted and the wrapped error comes back. -/
theorem C3_find_non_notFound_witness :
    ThemeR.find
        (.mk (s2l "t") (fun _ _ => .error (.external 7))
          (some (.mk (s2l "p") (fun _ _ => .error .notFound) none)))
        (s2l "x")
      = (.error (.wrapFind (s2l "t") (s2l "x") (.external 7)), 1) :=
  (C3_find_non_notFound (s2l "t") (s2l "x") (fun _ _ => .error (.external 7))
    (some (.mk (s2l "p") (fun _ _ => .error .notFound) none))
    (.external 7) rfl rfl).1

instance {ε α : Type} [DecidableEq ε] [DecidableEq α] :
    DecidableEq (Except ε α) := fun
  | .ok a, .ok b =>
    if h : a = b then .isTrue (by rw [h])
    else .isFalse (by intro hc; cases hc; exact h rfl)
  | .ok _, .error _ => .isFalse (by intro hc; cases hc)
  | .error _, .ok _ => .isFalse (by intro hc; cases hc)
  | .error a, .error b =>
    if h : a = b then .isTrue (by rw [h])
    else .isFalse (by intro hc; cases hc; exact h rfl)

/-- Counterexample to C3 as stated: the claim demands the *identical*
error value (not re-wrapped); the code wraps the storage failure in
`fmt.Errorf("theme: failed to find template %s/%s: %w", ...)`, so the
returned error differs from the storage's error. -/
theorem C3_counterexample :
    (ThemeR.find (.mk (s2l "t") (fun _ _ => .error (.external 7)) none)
        (s2l "x")).1
      ≠ .error (.external 7) := by
  decide


/-! ## Reference markers (`templateRe`/`defineRe`)

Both regexes have the shape `keyword\s+"([^"]+)"`.  `tryKey` matches one
alternative at the start of a string; `scanRefs` emits the captures of
all non-overlapping leftmost matches, as `FindAllStringSubmatch` does. -/

/-- Parse `"([^"]+)"` at the start of `l`: an opening quote, a nonempty
run of non-quote characters (the capture) and a closing quote. -/
def parseQuoted : Str → Option (Str × Str)
  | [] => none
  | c :: r3 =>
    if c = '\"' then
      match r3.dropWhile (fun x => x != '\"') with
      | _ :: r5 =>
        if r3.takeWhile (fun x => x != '\"') = [] then none
        else some (r3.takeWhile (fun x => x != '\"'), r5)
      | [] => none
    else none

/-- Match `key\s+"([^"]+)"` at the very start of `l`; on success return
the capture and the remainder after the closing quote. -/
def tryKey (key l : Str) : Option (Str × Str) :=
  if key.isPrefixOf l then
    let r1 := l.drop key.length
    if r1.takeWhile reSpace = [] then none
    else parseQuoted (r1.dropWhile reSpace)
  else none

/-- First alternative of `keys` that matches at the start of `l`. -/
def tryKeys : List Str → Str → Option (Str × Str)
  | [], _ => none
  | k :: ks, l =>
    match tryKey k l with
    | some res => some res
    | none => tryKeys ks l

/-- All captures of the non-overlapping leftmost matches of
`keyword\s+"([^"]+)"` in a string (`FindAllStringSubmatch` with the
second capture group of `templateRe`, or the first of `defineRe`).
After a match the scan resumes right after the closing quote, otherwise
it advances one character; the fuel (initially the string's length,
which bounds the number of steps) keeps the recursion structural. -/
def scanRefsAux (keys : List Str) : Nat → Str → List Str
  | 0, _ => []
  | _, [] => []
  | n + 1, c :: cs =>
    match tryKeys keys (c :: cs) with
    | some (cap, rest) => cap :: scanRefsAux keys n rest
    | none => scanRefsAux keys n cs

def scanRefs (keys : List Str) (l : Str) : List Str :=
  scanRefsAux keys l.length l

/-- `templateRe = (template|block)\s+"([^"]+)"`: leftmost alternative
`template` first. -/
def templateRefs (content : Str) : List Str :=
  scanRefs [s2l "template", s2l "block"] content

/-- `defineRe = define\s+"([^"]+)"`. -/
def defineNames (content : Str) : List Str :=
  scanRefs [s2l "define"] content

/-! ## Dependency resolution (`findByName` / `findByTemplate`)

The Go code threads one mutable `map[string]Template` through the
mutually recursive walk; here the map is an association list threaded
through the calls — also on the error path, since Go's map mutations
survive a swallowed error.  Results carry the (grown) map, the error
outcome of the call (`none` = success) and the number of `storage.Find`
probes; the outer `Option` is the fuel guard (`none` = out of fuel,
i.e. the Go recursion would not have terminated). -/

abbrev DepMap := List (Str × Tmpl)

/-- Association-list lookup (Go map read `m[k]`). -/
def lookupD {β : Type} : List (Str × β) → Str → Option β
  | [], _ => none
  | (k, v) :: rest, key => if key = k then some v else lookupD rest key

/-- The result of one resolution step: the (possibly grown) dependency
map, the error outcome (`none` = success) and the number of
`storage.Find` probes. -/
abbrev RRes := DepMap × Option GoErr × Nat

/-- The reference loop of `findByTemplate`, parameterised by the
resolution of a single name (`findByName` at the current fuel): a
NotFound failure of a referenced name is swallowed and the loop
continues; any other failure aborts. -/
def findRefsF (f : DepMap → Str → Option RRes) :
    DepMap → List Str → Option RRes
  | data, [] => some (data, none, 0)
  | data, r :: rs =>
    match f data r with
    | none => none
    | some (d1, some e, n1) =>
      if isNotFound e then
        match findRefsF f d1 rs with
        | none => none
        | some (d2, err, n2) => some (d2, err, n1 + n2)
      else some (d1, some e, n1)
    | some (d1, none, n1) =>
      match findRefsF f d1 rs with
      | none => none
      | some (d2, err, n2) => some (d2, err, n1 + n2)

/-- `Theme.findByTemplate`, parameterised like `findRefsF`: resolve the
declared path ancestor first (mandatory — any error aborts), then every
`template`/`block` reference in the content. -/
def findByTemplateF (f : DepMap → Str → Option RRes) (data : DepMap)
    (item : Tmpl) : Option RRes :=
  if item.path ≠ item.name then
    match f data item.path with
    | none => none
    | some (d1, some e, n1) => some (d1, some e, n1)
    | some (d1, none, n1) =>
      match findRefsF f d1 (templateRefs item.content) with
      | none => none
      | some (d2, err, n2) => some (d2, err, n1 + n2)
  else
    findRefsF f data (templateRefs item.content)

/-- `Theme.findByName`: memo hit returns at once; otherwise `find` the
record, insert it under the requested name, and walk its dependencies.
`none` = out of fuel (the Go recursion would not have terminated). -/
def findByName : Nat → ThemeR → DepMap → Str → Option RRes
  | 0, _, _, _ => none
  | fuel + 1, th, data, name =>
    match lookupD data name with
    | some _ => some (data, none, 0)
    | none =>
      match th.find name with
      | (.error e, n) => some (data, some e, n)
      | (.ok dep, n) =>
        match findByTemplateF (findByName fuel th) ((name, dep) :: data) dep with
        | none => none
        | some (d2, err, n2) => some (d2, err, n + n2)

/-- `Theme.findByTemplate` at a given fuel. -/
def findByTemplate (fuel : Nat) (th : ThemeR) : DepMap → Tmpl → Option RRes :=
  findByTemplateF (findByName fuel th)

/-- The reference loop of `Theme.findByTemplate` at a given fuel. -/
def findRefs (fuel : Nat) (th : ThemeR) : DepMap → List Str → Option RRes :=
  findRefsF (findByName fuel th)

/-! ## Unit assembly (`buildTemplate`)

The path chase `for page.Path() != page.Name() { page = data[page.Path()] }`
is modelled with fuel: `missing` is the Go nil-map-entry dereference
(a panic on the next iteration), `fuelOut` a non-terminating path cycle.
The executable-template machinery of `html/template` is external to the
core: a compiled unit is modelled by what the code feeds it — the entry
template's name and body and the list of named sub-template fragments,
in registration order (Go map iteration order is unspecified; the model
iterates the dependency list). -/

inductive ChaseOut where
  | done : Tmpl → ChaseOut
  | missing : Str → ChaseOut
  | fuelOut : ChaseOut
deriving DecidableEq, Repr

/-- The path-pointer chase of `buildTemplate`. -/
def chase (fuel : Nat) (data : DepMap) (page : Tmpl) : ChaseOut :=
  match fuel with
  | 0 => .fuelOut
  | fuel + 1 =>
    if page.path = page.name then .done page
    else
      match lookupD data page.path with
      | some p2 => chase fuel data p2
      | none => .missing page.path

/-- A compiled unit, as assembled by `buildTemplate`. -/
structure UnitT where
  entryName : Str
  entryContent : Str
  subs : List (Str × Str)
deriving DecidableEq, Repr

/-- Sub-templates registered for one non-entry record: its whole content
under its own name when it declares no `define` blocks, otherwise the
content once under each declared block name. -/
def subsFor (item : Tmpl) : List (Str × Str) :=
  match defineNames item.content with
  | [] => [(item.name, item.content)]
  | ms => ms.map (fun m => (m, item.content))

/-- `Theme.buildTemplate`: resolve the dependency set, look up the root,
chase path pointers to the chain top, compile the chain top as the entry
and register every other record's fragments.  (`template.Parse` syntax
failures belong to the external template engine and are not modelled.)
The `Nat` component counts `storage.Find` probes. -/
def buildTemplate (fuel fuelC : Nat) (th : ThemeR) (name : Str) :
    Option (Except GoErr UnitT × Nat) :=
  match findByName fuel th [] name with
  | none => none
  | some (_, some e, n) => some (.error e, n)
  | some (data, none, n) =>
    match lookupD data name with
    | none => some (.error (.wrapMissing th.name name .notFound), n)
    | some page0 =>
      match chase fuelC data page0 with
      | .done page =>
        some (.ok ⟨page.name, page.content,
          ((data.filter (fun kv => kv.2 != page)).map
            (fun kv => subsFor kv.2)).flatten⟩, n)
      | .missing _ => none
      | .fuelOut => none

/-- `Theme.Write` for a theme with debug flag `debug` and compiled-unit
cache `cache`; `exec` is the external template-execution engine (a black
box, deterministic in the unit and the data).  Returns the written
output or the error, the theme's cache after the call and the number of
`storage.Find` probes made. -/
def WriteT {α : Type} (exec : UnitT → α → Str) (fuel fuelC : Nat)
    (th : ThemeR) (debug : Bool) (cache : List (Str × UnitT)) (name : Str)
    (d : α) : Option (Except GoErr Str × List (Str × UnitT) × Nat) :=
  if debug = false then
    match lookupD cache name with
    | some u => some (.ok (exec u d), cache, 0)
    | none =>
      match buildTemplate fuel fuelC th name with
      | none => none
      | some (.error e, n) => some (.error e, cache, n)
      | some (.ok u, n) => some (.ok (exec u d), (name, u) :: cache, n)
  else
    match buildTemplate fuel fuelC th name with
    | none => none
    | some (.error e, n) => some (.error e, cache, n)
    | some (.ok u, n) => some (.ok (exec u d), cache, n)

/-! ## `StoreMemory` -/

/-- Association-list update with replacement (`sync.Map.Store`). -/
def insertA {β : Type} (k : Str) (v : β) : List (Str × β) → List (Str × β)
  | [] => [(k, v)]
  | (k2, v2) :: rest =>
    if k = k2 then (k, v) :: rest else (k2, v2) :: insertA k v rest

/-- `StoreMemory`: templates keyed by the concatenation `theme+name`. -/
structure StoreMemory where
  templates : List (Str × Tmpl)
deriving DecidableEq, Repr

def StoreMemory.Add (s : StoreMemory) (theme name content : Str) :
    StoreMemory :=
  ⟨insertA (theme ++ name) (newTemplate theme name content) s.templates⟩

def StoreMemory.Find (s : StoreMemory) (theme name : Str) :
    Except GoErr Tmpl :=
  match lookupD s.templates (theme ++ name) with
  | some t => .ok t
  | none => .error (.wrapMem theme name .notFound)

theorem lookupD_insertA {β : Type} (k k' : Str) (v : β)
    (l : List (Str × β)) :
    lookupD (insertA k v l) k' = if k' = k then some v else lookupD l k' := by
  induction l with
  | nil => simp [insertA, lookupD]
  | cons kv rest ih =>
    obtain ⟨k2, v2⟩ := kv
    rw [insertA]
    by_cases hk : k = k2
    · subst hk
      rw [if_pos rfl]
      by_cases h' : k' = k
      · rw [lookupD, if_pos h', if_pos h']
      · rw [lookupD, if_neg h', if_neg h', lookupD, if_neg h']
    · rw [if_neg hk, lookupD, lookupD]
      by_cases h' : k' = k2
      · rw [if_pos h', if_pos h']
        rw [if_neg (fun hc => hk (hc ▸ h'.symm).symm)]
      · rw [if_neg h', if_neg h', ih]

/-- C10: `StoreMemory` keys records by the plain concatenation
`theme+name`: after `Add(t, n, c)` every pair `(t', n')` whose
concatenation coincides finds the record stored for `(t, n)` — distinct
pairs alias to one entry, and `Add` under one pair overwrites the record
visible under the other. -/
theorem C10_storeMemory_concat_alias (s : StoreMemory) (t n c t' n' : Str)
    (h : t' ++ n' = t ++ n) :
    (s.Add t n c).Find t' n' = .ok (newTemplate t n c) := by
  unfold StoreMemory.Find StoreMemory.Add
  simp only []
  rw [lookupD_insertA, if_pos h]

/-- Witness for C10: `("ab","c")` and `("a","bc")` alias; the second
`Add` overwrites the record the first made visible under `("ab","c")`. -/
theorem C10_storeMemory_concat_alias_witness :
    (((StoreMemory.mk []).Add (s2l "ab") (s2l "c") (s2l "X")).Add
        (s2l "a") (s2l "bc") (s2l "Y")).Find (s2l "ab") (s2l "c")
      = .ok (newTemplate (s2l "a") (s2l "bc") (s2l "Y")) :=
  C10_storeMemory_concat_alias ((StoreMemory.mk []).Add (s2l "ab") (s2l "c") (s2l "X"))
    (s2l "a") (s2l "bc") (s2l "Y") (s2l "ab") (s2l "c") (by decide)

/-- C8: for a non-debug theme with unchanged configuration, a second
`Write` with the same `(name, data)` right after a successful one
returns byte-identical output, leaves the cache as it was, and performs
zero storage probes — it executes the cached compiled unit. -/
theorem C8_write_idempotent_cached {α : Type} (exec : UnitT → α → Str)
    (fuel fuelC : Nat) (th : ThemeR) (cache : List (Str × UnitT))
    (name : Str) (d : α) (out : Str) (cache1 : List (Str × UnitT)) (n1 : Nat)
    (h : WriteT exec fuel fuelC th false cache name d
      = some (.ok out, cache1, n1)) :
    WriteT exec fuel fuelC th false cache1 name d
      = some (.ok out, cache1, 0) := by
  unfold WriteT at h ⊢
  rw [if_pos rfl] at h ⊢
  rcases hlk : lookupD cache name with _ | u <;> rw [hlk] at h
  · rcases hbt : buildTemplate fuel fuelC th name with _ | ⟨res, n⟩ <;>
      rw [hbt] at h
    · cases h
    · rcases res with e | u
      · exact absurd (congrArg (fun x => (Prod.fst <$> x : Option _)) h) (by simp)
      · have h1 : exec u d = out ∧ ((name, u) :: cache) = cache1 ∧ n = n1 := by
          have hinj := Option.some.inj h
          refine ⟨?_, ?_, ?_⟩
          · have := congrArg Prod.fst hinj
            simpa using this
          · exact congrArg (fun x => x.2.1) hinj
          · exact congrArg (fun x => x.2.2) hinj
        obtain ⟨rfl, rfl, rfl⟩ := h1
        rw [show lookupD ((name, u) :: cache) name = some u from by
          rw [lookupD, if_pos rfl]]
  · have h1 : exec u d = out ∧ cache = cache1 := by
      have hinj := Option.some.inj h
      constructor
      · have := congrArg Prod.fst hinj
        simpa using this
      · exact congrArg (fun x => x.2.1) hinj
    obtain ⟨rfl, rfl⟩ := h1
    rw [hlk]

/-! ## Concrete fixtures for witnesses and counterexamples -/

/-- A memory-backed storage function (the `StorageMemory` variant used
by `Theme`, identical in shape to `StoreMemory`). -/
def memStorage (entries : List (Str × Tmpl)) : Str → Str → Except GoErr Tmpl :=
  fun tn n => (StoreMemory.mk entries).Find tn n

/-- The execution engine used by concrete fixtures: entry body followed
by the data (any deterministic function works for the claims). -/
def execC : UnitT → Str → Str := fun u d => u.entryContent ++ d

/-- Theme `"t"` holding a single plain template `"home"` = `"HI"`. -/
def thHome : ThemeR :=
  .mk (s2l "t")
    (memStorage [(s2l "thome", newTemplate (s2l "t") (s2l "home") (s2l "HI"))])
    none

/-- Witness for C8: after the first `Write` of `"home"` filled the
cache, the second call returns the same bytes with zero storage probes. -/
theorem C8_write_idempotent_cached_witness :
    WriteT execC 5 5 thHome false [(s2l "home", ⟨s2l "home", s2l "HI", []⟩)]
        (s2l "home") (s2l "!")
      = some (.ok (s2l "HI!"), [(s2l "home", ⟨s2l "home", s2l "HI", []⟩)], 0) :=
  C8_write_idempotent_cached execC 5 5 thHome [] (s2l "home") (s2l "!")
    (s2l "HI!") [(s2l "home", ⟨s2l "home", s2l "HI", []⟩)] 1 (by decide)

/-- C1 (amended): on a cache miss the assembler chases path pointers
from the requested root record to the chain top (`path == name`) and
compiles the chain-top record's content as the unit's entry template —
but bound under the chain-top record's *own* name (`page.Name()` after
the chase), not under the requested root's logical name. -/
theorem C1_entry_is_chain_top (fuel fuelC : Nat) (th : ThemeR) (name : Str)
    (data : DepMap) (n : Nat) (page0 page : Tmpl)
    (hres : findByName fuel th [] name = some (data, none, n))
    (hlk : lookupD data name = some page0)
    (hch : chase fuelC data page0 = .done page) :
    buildTemplate fuel fuelC th name
      = some (.ok ⟨page.name, page.content,
          ((data.filter (fun kv => kv.2 != page)).map
            (fun kv => subsFor kv.2)).flatten⟩, n) := by
  simp only [buildTemplate, hres, hlk, hch]

/-- Theme `"t"` with `"child"` inheriting from `"base"` (the spec's
end-to-end inheritance scenario). -/
def thInherit : ThemeR :=
  .mk (s2l "t")
    (memStorage
      [ (s2l "tchild", newTemplate (s2l "t") (s2l "child") (s2l "<!-- base -->BODY")),
        (s2l "tbase",
          newTemplate (s2l "t") (s2l "base") (s2l "<!-- base -->SKEL\x7b\x7bblock \"slot\"\x7d\x7d\x7b\x7bend\x7d\x7d"))])
    none

/-- Witness for C1 (amended): resolving `"child"` compiles `"base"`'s
skeleton as the entry, bound under the name `"base"`. -/
theorem C1_entry_is_chain_top_witness :
    buildTemplate 10 10 thInherit (s2l "child")
      = some (.ok ⟨s2l "base", s2l "SKEL\x7b\x7bblock \"slot\"\x7d\x7d\x7b\x7bend\x7d\x7d",
          [(s2l "child", s2l "BODY")]⟩, 3) := by
  have h := C1_entry_is_chain_top 10 10 thInherit (s2l "child")
    [ (s2l "base", newTemplate (s2l "t") (s2l "base") (s2l "<!-- base -->SKEL\x7b\x7bblock \"slot\"\x7d\x7d\x7b\x7bend\x7d\x7d")),
      (s2l "child", newTemplate (s2l "t") (s2l "child") (s2l "<!-- base -->BODY"))]
    3
    (newTemplate (s2l "t") (s2l "child") (s2l "<!-- base -->BODY"))
    (newTemplate (s2l "t") (s2l "base") (s2l "<!-- base -->SKEL\x7b\x7bblock \"slot\"\x7d\x7d\x7b\x7bend\x7d\x7d"))
    (by decide) (by decide) (by decide)
  exact h.trans (by decide)

/-- Counterexample to C1 as stated: the entry template of the compiled
unit for `"child"` is bound under `"base"` (the chain top's own name),
not under the requested logical name `"child"`. -/
theorem C1_counterexample :
    buildTemplate 10 10 thInherit (s2l "child")
        = some (.ok ⟨s2l "base", s2l "SKEL\x7b\x7bblock \"slot\"\x7d\x7d\x7b\x7bend\x7d\x7d",
            [(s2l "child", s2l "BODY")]⟩, 3)
      ∧ s2l "base" ≠ s2l "child" := by
  constructor
  · decide
  · decide

/-- C5: during dependency resolution, (i) any failure of a declared path
ancestor (`path != name`) aborts the whole walk with that error, (ii) a
NotFound failure of a referenced sub-template is swallowed and the walk
continues with the (possibly grown) map, and (iii) a non-NotFound
failure of a referenced sub-template aborts with that error. -/
theorem C5_path_mandatory_refs_optional (fuel : Nat) (th : ThemeR) :
    (∀ data item d1 e n1, item.path ≠ item.name →
        findByName fuel th data item.path = some (d1, some e, n1) →
        findByTemplate fuel th data item = some (d1, some e, n1))
    ∧ (∀ data r rs d1 e n1 d2 err n2,
        findByName fuel th data r = some (d1, some e, n1) →
        isNotFound e = true →
        findRefs fuel th d1 rs = some (d2, err, n2) →
        findRefs fuel th data (r :: rs) = some (d2, err, n1 + n2))
    ∧ (∀ data r rs d1 e n1,
        findByName fuel th data r = some (d1, some e, n1) →
        isNotFound e = false →
        findRefs fuel th data (r :: rs) = some (d1, some e, n1)) := by
  refine ⟨?_, ?_, ?_⟩
  · intro data item d1 e n1 hne h
    unfold findByTemplate findByTemplateF
    rw [if_pos hne, h]
  · intro data r rs d1 e n1 d2 err n2 h hnf hrs
    unfold findRefs at hrs ⊢
    simp only [findRefsF, h, hnf, if_true, hrs]
  · intro data r rs d1 e n1 h hnf
    unfold findRefs
    simp only [findRefsF, h, hnf, Bool.false_eq_true, if_false]

/-- Theme for the C5 witness: `"a"` declares the missing path ancestor
`"gone"`; looking up `"boom"` hits an opaque storage failure. -/
def thErr : ThemeR :=
  .mk (s2l "t")
    (fun tn n =>
      if n = s2l "boom" then .error (.external 3)
      else memStorage
        [(s2l "ta", newTemplate (s2l "t") (s2l "a") (s2l "<!-- gone -->X"))] tn n)
    none

/-- Witness for C5: the three propagation behaviours at concrete inputs. -/
theorem C5_path_mandatory_refs_optional_witness :
    findByTemplate 5 thErr []
        (newTemplate (s2l "t") (s2l "a") (s2l "<!-- gone -->X"))
      = some ([], some (.wrapFind (s2l "t") (s2l "gone")
          (.wrapMem (s2l "t") (s2l "gone") .notFound)), 1)
    ∧ findRefs 5 thErr [] [s2l "gone"] = some ([], none, 1 + 0)
    ∧ findRefs 5 thErr [] [s2l "boom", s2l "x"]
      = some ([], some (.wrapFind (s2l "t") (s2l "boom") (.external 3)), 1) := by
  refine ⟨?_, ?_, ?_⟩
  · exact (C5_path_mandatory_refs_optional 5 thErr).1 []
      (newTemplate (s2l "t") (s2l "a") (s2l "<!-- gone -->X")) []
      (.wrapFind (s2l "t") (s2l "gone") (.wrapMem (s2l "t") (s2l "gone") .notFound)) 1
      (by decide) (by decide)
  · exact (C5_path_mandatory_refs_optional 5 thErr).2.1 [] (s2l "gone") [] []
      (.wrapFind (s2l "t") (s2l "gone") (.wrapMem (s2l "t") (s2l "gone") .notFound)) 1
      [] none 0 (by decide) (by decide) (by decide)
  · exact (C5_path_mandatory_refs_optional 5 thErr).2.2 [] (s2l "boom") [s2l "x"]
      [] (.wrapFind (s2l "t") (s2l "boom") (.external 3)) 1 (by decide) (by decide)

/-! ## The dependency map only grows

Every binding present before a resolution step is still present (with
the same record) afterwards, whatever the outcome — the Go code only
ever inserts fresh keys into the shared map. -/

/-- Bindings other than a fresh key survive a cons-insert. -/
theorem lookupD_cons_of_lookup_none {β : Type} (data : List (Str × β))
    (name k : Str) (dep v : β) (hname : lookupD data name = none)
    (hk : lookupD data k = some v) :
    lookupD ((name, dep) :: data) k = some v := by
  rw [lookupD]
  by_cases hkn : k = name
  · subst hkn; rw [hname] at hk; cases hk
  · rw [if_neg hkn]; exact hk

theorem findRefsF_grow (f : DepMap → Str → Option RRes)
    (hf : ∀ data r d' err n, f data r = some (d', err, n) →
      ∀ k v, lookupD data k = some v → lookupD d' k = some v) :
    ∀ refs data d' err n, findRefsF f data refs = some (d', err, n) →
      ∀ k v, lookupD data k = some v → lookupD d' k = some v := by
  intro refs
  induction refs with
  | nil =>
    intro data d' err n h k v hk
    rw [findRefsF] at h
    obtain ⟨rfl, -, -⟩ : data = d' ∧ (none : Option GoErr) = err ∧ 0 = n := by
      simpa using h
    exact hk
  | cons r rs ih =>
    intro data d' err n h k v hk
    rw [findRefsF] at h
    rcases hf1 : f data r with _ | ⟨d1, err1, n1⟩ <;> simp only [hf1] at h
    · cases h
    · have hkv1 : lookupD d1 k = some v := hf data r d1 err1 n1 hf1 k v hk
      rcases err1 with _ | e
      · rcases hrs : findRefsF f d1 rs with _ | ⟨d2, err2, n2⟩ <;>
          simp only [hrs] at h
        · cases h
        · obtain ⟨rfl, -, -⟩ : d2 = d' ∧ err2 = err ∧ n1 + n2 = n := by
            simpa using h
          exact ih d1 _ err2 n2 hrs k v hkv1
      · by_cases hnf : isNotFound e = true
        · simp only [hnf, if_true] at h
          rcases hrs : findRefsF f d1 rs with _ | ⟨d2, err2, n2⟩ <;>
            simp only [hrs] at h
          · cases h
          · obtain ⟨rfl, -, -⟩ : d2 = d' ∧ err2 = err ∧ n1 + n2 = n := by
              simpa using h
            exact ih d1 _ err2 n2 hrs k v hkv1
        · simp only [hnf, if_false] at h
          obtain ⟨rfl, -, -⟩ : d1 = d' ∧ some e = err ∧ n1 = n := by
            simpa using h
          exact hkv1

theorem findByTemplateF_grow (f : DepMap → Str → Option RRes)
    (hf : ∀ data r d' err n, f data r = some (d', err, n) →
      ∀ k v, lookupD data k = some v → lookupD d' k = some v)
    (data : DepMap) (item : Tmpl) (d' : DepMap) (err : Option GoErr) (n : Nat)
    (h : findByTemplateF f data item = some (d', err, n)) :
    ∀ k v, lookupD data k = some v → lookupD d' k = some v := by
  intro k v hk
  rw [findByTemplateF] at h
  by_cases hp : item.path ≠ item.name
  · rw [if_pos hp] at h
    rcases hf1 : f data item.path with _ | ⟨d1, err1, n1⟩ <;> simp only [hf1] at h
    · cases h
    · have hkv1 : lookupD d1 k = some v := hf data item.path d1 err1 n1 hf1 k v hk
      rcases err1 with _ | e
      · rcases hrs : findRefsF f d1 (templateRefs item.content) with
          _ | ⟨d2, err2, n2⟩ <;> simp only [hrs] at h
        · cases h
        · obtain ⟨rfl, -, -⟩ : d2 = d' ∧ err2 = err ∧ n1 + n2 = n := by
            simpa using h
          exact findRefsF_grow f hf _ d1 _ err2 n2 hrs k v hkv1
      · obtain ⟨rfl, -, -⟩ : d1 = d' ∧ some e = err ∧ n1 = n := by simpa using h
        exact hkv1
  · rw [if_neg hp] at h
    exact findRefsF_grow f hf _ data d' err n h k v hk

theorem findByName_grow (fuel : Nat) (th : ThemeR) :
    ∀ data name d' err n, findByName fuel th data name = some (d', err, n) →
      ∀ k v, lookupD data k = some v → lookupD d' k = some v := by
  induction fuel with
  | zero => intro data name d' err n h; rw [findByName] at h; cases h
  | succ fuel ih =>
    intro data name d' err n h k v hk
    rw [findByName] at h
    rcases hlk : lookupD data name with _ | dep0 <;> simp only [hlk] at h
    · rcases hfind : th.find name with ⟨res, m⟩
      simp only [hfind] at h
      rcases res with e | dep <;> simp only [] at h
      · obtain ⟨rfl, -, -⟩ : data = d' ∧ some e = err ∧ m = n := by simpa using h
        exact hk
      · rcases hbt : findByTemplateF (findByName fuel th) ((name, dep) :: data) dep
          with _ | ⟨d2, err2, n2⟩ <;> simp only [hbt] at h
        · cases h
        · obtain ⟨rfl, -, -⟩ : d2 = d' ∧ err2 = err ∧ m + n2 = n := by
            simpa using h
          exact findByTemplateF_grow _ ih _ dep _ err2 n2 hbt k v
            (lookupD_cons_of_lookup_none data name k dep v hlk hk)
    · obtain ⟨rfl, -, -⟩ : data = d' ∧ (none : Option GoErr) = err ∧ 0 = n := by
        simpa using h
      exact hk

/-! ### Unfolding equations for the resolver -/

theorem findRefsF_cons_none (f : DepMap → Str → Option RRes) (data : DepMap)
    (r : Str) (rs : List Str) (h : f data r = none) :
    findRefsF f data (r :: rs) = none := by
  rw [findRefsF, h]

theorem findRefsF_cons_ok (f : DepMap → Str → Option RRes) (data : DepMap)
    (r : Str) (rs : List Str) (d1 : DepMap) (n1 : Nat)
    (h : f data r = some (d1, none, n1)) :
    findRefsF f data (r :: rs)
      = match findRefsF f d1 rs with
        | none => none
        | some (d2, err, n2) => some (d2, err, n1 + n2) := by
  rw [findRefsF, h]

theorem findRefsF_cons_err (f : DepMap → Str → Option RRes) (data : DepMap)
    (r : Str) (rs : List Str) (d1 : DepMap) (e : GoErr) (n1 : Nat)
    (h : f data r = some (d1, some e, n1)) :
    findRefsF f data (r :: rs)
      = if isNotFound e = true then
          match findRefsF f d1 rs with
          | none => none
          | some (d2, err, n2) => some (d2, err, n1 + n2)
        else some (d1, some e, n1) := by
  rw [findRefsF, h]

theorem findByTemplateF_path (f : DepMap → Str → Option RRes) (data : DepMap)
    (item : Tmpl) (hp : item.path ≠ item.name) :
    findByTemplateF f data item
      = match f data item.path with
        | none => none
        | some (d1, some e, n1) => some (d1, some e, n1)
        | some (d1, none, n1) =>
          match findRefsF f d1 (templateRefs item.content) with
          | none => none
          | some (d2, err, n2) => some (d2, err, n1 + n2) := by
  rw [findByTemplateF, if_pos hp]

theorem findByTemplateF_nopath (f : DepMap → Str → Option RRes) (data : DepMap)
    (item : Tmpl) (hp : item.path = item.name) :
    findByTemplateF f data item = findRefsF f data (templateRefs item.content) := by
  rw [findByTemplateF, if_neg (by rw [hp]; exact fun hc => hc rfl)]

theorem findByName_succ_memo (fuel : Nat) (th : ThemeR) (data : DepMap)
    (name : Str) (dep0 : Tmpl) (h : lookupD data name = some dep0) :
    findByName (fuel + 1) th data name = some (data, none, 0) := by
  rw [findByName, h]

theorem findByName_succ_err (fuel : Nat) (th : ThemeR) (data : DepMap)
    (name : Str) (e : GoErr) (m : Nat) (hlk : lookupD data name = none)
    (hf : th.find name = (.error e, m)) :
    findByName (fuel + 1) th data name = some (data, some e, m) := by
  rw [findByName, hlk, hf]

theorem findByName_succ_ok (fuel : Nat) (th : ThemeR) (data : DepMap)
    (name : Str) (dep : Tmpl) (m : Nat) (hlk : lookupD data name = none)
    (hf : th.find name = (.ok dep, m)) :
    findByName (fuel + 1) th data name
      = match findByTemplateF (findByName fuel th) ((name, dep) :: data) dep with
        | none => none
        | some (d2, err, n2) => some (d2, err, m + n2) := by
  rw [findByName, hlk, hf]

/-! ## Termination of dependency resolution (C6)

Each `findByName` call that actually recurses first inserts a fresh key
into the map, and every key it can insert belongs to the (finite) set of
names the theme chain can successfully find.  The number of names of
that set still unresolved in the map therefore bounds the recursion
depth. -/

/-- Names of `S` not yet bound in `data`. -/
def unresolved (S : Finset Str) (data : DepMap) : Finset Str :=
  S.filter (fun s => lookupD data s = none)

theorem unresolved_card_le (S : Finset Str) (data data' : DepMap)
    (h : ∀ k v, lookupD data k = some v → lookupD data' k = some v) :
    (unresolved S data').card ≤ (unresolved S data).card := by
  apply Finset.card_le_card
  intro s hs
  rw [unresolved, Finset.mem_filter] at hs ⊢
  refine ⟨hs.1, ?_⟩
  rcases hl : lookupD data s with _ | v
  · rfl
  · exact absurd (h s v hl) (by rw [hs.2]; simp)

theorem unresolved_card_insert_lt (S : Finset Str) (data : DepMap)
    (name : Str) (dep : Tmpl) (hmem : name ∈ S)
    (hnone : lookupD data name = none) :
    (unresolved S ((name, dep) :: data)).card < (unresolved S data).card := by
  apply Finset.card_lt_card
  rw [Finset.ssubset_iff_of_subset]
  · refine ⟨name, ?_, ?_⟩
    · exact Finset.mem_filter.2 ⟨hmem, hnone⟩
    · intro hin
      have h2 := (Finset.mem_filter.1 hin).2
      rw [lookupD, if_pos rfl] at h2
      cases h2
  · intro s hs
    rw [unresolved, Finset.mem_filter] at hs ⊢
    refine ⟨hs.1, ?_⟩
    have h2 := hs.2
    rw [lookupD] at h2
    by_cases hsn : s = name
    · rw [if_pos hsn] at h2; cases h2
    · rw [if_neg hsn] at h2; exact h2

/-- With fuel exceeding the number of findable-but-unresolved names,
`findByName` (and its companions) cannot run out of fuel. -/
theorem resolution_total (S : Finset Str) (th : ThemeR)
    (hS : ∀ name r m, th.find name = (.ok r, m) → name ∈ S) :
    ∀ fuel,
      (∀ data name, (unresolved S data).card < fuel →
        (findByName fuel th data name).isSome = true)
      ∧ (∀ refs data, (unresolved S data).card < fuel →
        (findRefsF (findByName fuel th) data refs).isSome = true)
      ∧ (∀ data item, (unresolved S data).card < fuel →
        (findByTemplateF (findByName fuel th) data item).isSome = true) := by
  intro fuel
  induction fuel with
  | zero => exact ⟨fun _ _ h => absurd h (by omega),
      fun _ _ h => absurd h (by omega), fun _ _ h => absurd h (by omega)⟩
  | succ fuel ih =>
    have hA : ∀ data name, (unresolved S data).card < fuel + 1 →
        (findByName (fuel + 1) th data name).isSome = true := by
      intro data name hcard
      rw [findByName]
      rcases hlk : lookupD data name with _ | dep0 <;> simp only [hlk]
      · rcases hfind : th.find name with ⟨res, m⟩
        rcases res with e | dep <;> simp only [hfind]
        · rfl
        · have hmem : name ∈ S := hS name dep m hfind
          have hlt : (unresolved S ((name, dep) :: data)).card < fuel :=
            Nat.lt_of_lt_of_le (unresolved_card_insert_lt S data name dep hmem hlk)
              (by omega)
          have hbt := ih.2.2 ((name, dep) :: data) dep hlt
          rcases hres : findByTemplateF (findByName fuel th)
              ((name, dep) :: data) dep with _ | ⟨d2, err2, n2⟩
          · rw [hres] at hbt; cases hbt
          · simp only [hres]
            rfl
      · rfl
    refine ⟨hA, ?_, ?_⟩
    · intro refs
      induction refs with
      | nil => intro data hcard; rw [findRefsF]; rfl
      | cons r rs ihr =>
        intro data hcard
        have h1 := hA data r hcard
        rcases h1r : findByName (fuel + 1) th data r with _ | ⟨d1, err1, n1⟩
        · rw [h1r] at h1; cases h1
        · have hd1 : (unresolved S d1).card < fuel + 1 :=
            Nat.lt_of_le_of_lt
              (unresolved_card_le S data d1
                (findByName_grow (fuel + 1) th data r d1 err1 n1 h1r)) hcard
          have h2 := ihr d1 hd1
          rcases err1 with _ | e
          · rw [findRefsF_cons_ok _ data r rs d1 n1 h1r]
            rcases h2r : findRefsF (findByName (fuel + 1) th) d1 rs with
              _ | ⟨d2, err2, n2⟩
            · rw [h2r] at h2; cases h2
            · rfl
          · rw [findRefsF_cons_err _ data r rs d1 e n1 h1r]
            by_cases hnf : isNotFound e = true
            · rw [if_pos hnf]
              rcases h2r : findRefsF (findByName (fuel + 1) th) d1 rs with
                _ | ⟨d2, err2, n2⟩
              · rw [h2r] at h2; cases h2
              · rfl
            · rw [if_neg hnf]
              rfl
    · intro data item hcard
      have hCrefs : ∀ refs data2, (unresolved S data2).card < fuel + 1 →
          (findRefsF (findByName (fuel + 1) th) data2 refs).isSome = true := by
        intro refs
        induction refs with
        | nil => intro data2 hc; rw [findRefsF]; rfl
        | cons r rs ihr =>
          intro data2 hc
          have h1 := hA data2 r hc
          rcases h1r : findByName (fuel + 1) th data2 r with _ | ⟨d1, err1, n1⟩
          · rw [h1r] at h1; cases h1
          · have hd1 : (unresolved S d1).card < fuel + 1 :=
              Nat.lt_of_le_of_lt
                (unresolved_card_le S data2 d1
                  (findByName_grow (fuel + 1) th data2 r d1 err1 n1 h1r)) hc
            have h2 := ihr d1 hd1
            rcases err1 with _ | e
            · rw [findRefsF_cons_ok _ data2 r rs d1 n1 h1r]
              rcases h2r : findRefsF (findByName (fuel + 1) th) d1 rs with
                _ | ⟨d2, err2, n2⟩
              · rw [h2r] at h2; cases h2
              · rfl
            · rw [findRefsF_cons_err _ data2 r rs d1 e n1 h1r]
              by_cases hnf : isNotFound e = true
              · rw [if_pos hnf]
                rcases h2r : findRefsF (findByName (fuel + 1) th) d1 rs with
                  _ | ⟨d2, err2, n2⟩
                · rw [h2r] at h2; cases h2
                · rfl
              · rw [if_neg hnf]
                rfl
      by_cases hp : item.path = item.name
      · rw [findByTemplateF_nopath _ data item hp]
        exact hCrefs (templateRefs item.content) data hcard
      · rw [findByTemplateF_path _ data item hp]
        have h1 := hA data item.path hcard
        rcases h1r : findByName (fuel + 1) th data item.path with
          _ | ⟨d1, err1, n1⟩
        · rw [h1r] at h1; cases h1
        · have hd1 : (unresolved S d1).card < fuel + 1 :=
            Nat.lt_of_le_of_lt
              (unresolved_card_le S data d1
                (findByName_grow (fuel + 1) th data item.path d1 err1 n1 h1r))
              hcard
          rcases err1 with _ | e
          · show (match findRefsF (findByName (fuel + 1) th) d1
                  (templateRefs item.content) with
              | none => none
              | some (d2, err, n2) => some (d2, err, n1 + n2)).isSome = true
            have h2 := hCrefs (templateRefs item.content) d1 hd1
            rcases h2r : findRefsF (findByName (fuel + 1) th) d1
                (templateRefs item.content) with _ | ⟨d2, err2, n2⟩
            · rw [h2r] at h2; cases h2
            · rfl
          · rfl

theorem lookupD_some_key_mem {β : Type} (l : List (Str × β)) (k : Str) (v : β)
    (h : lookupD l k = some v) : k ∈ l.map Prod.fst := by
  induction l with
  | nil => cases h
  | cons kv rest ih =>
    obtain ⟨k2, v2⟩ := kv
    rw [lookupD] at h
    by_cases hk : k = k2
    · subst hk; exact List.mem_cons_self _ _
    · rw [if_neg hk] at h
      exact List.mem_cons_of_mem _ (ih h)

/-- Theme `"t"` with a reference cycle: `"A"` references `"B"` and
`"B"` references `"A"`. -/
def thCycle : ThemeR :=
  .mk (s2l "t")
    (memStorage
      [ (s2l "tA", newTemplate (s2l "t") (s2l "A") (s2l "x\x7b\x7btemplate \"B\"\x7d\x7d")),
        (s2l "tB", newTemplate (s2l "t") (s2l "B") (s2l "\x7b\x7btemplate \"A\"\x7d\x7dy"))])
    none

theorem thCycle_find_names (name : Str) (r : Tmpl) (m : Nat)
    (h : thCycle.find name = (.ok r, m)) :
    name = s2l "A" ∨ name = s2l "B" := by
  unfold thCycle at h
  rw [ThemeR.find] at h
  rcases hst : memStorage
      [ (s2l "tA", newTemplate (s2l "t") (s2l "A") (s2l "x\x7b\x7btemplate \"B\"\x7d\x7d")),
        (s2l "tB", newTemplate (s2l "t") (s2l "B") (s2l "\x7b\x7btemplate \"A\"\x7d\x7dy"))]
      (s2l "t") name with e | t <;> rw [hst] at h
  · by_cases hnf : isNotFound e = true <;> simp [hnf] at h
  · unfold memStorage StoreMemory.Find at hst
    rcases hlk : lookupD
        [ (s2l "tA", newTemplate (s2l "t") (s2l "A") (s2l "x\x7b\x7btemplate \"B\"\x7d\x7d")),
          (s2l "tB", newTemplate (s2l "t") (s2l "B") (s2l "\x7b\x7btemplate \"A\"\x7d\x7dy"))]
        (s2l "t" ++ name) with _ | v <;> simp only [hlk] at hst
    · cases hst
    · have hmem := lookupD_some_key_mem _ _ _ hlk
      simp only [List.map, List.mem_cons, List.mem_singleton] at hmem
      rcases hmem with h1 | h1 | h1
      · left
        have h2 : s2l "t" ++ name = s2l "t" ++ s2l "A" := h1
        exact List.append_cancel_left h2
      · right
        have h2 : s2l "t" ++ name = s2l "t" ++ s2l "B" := h1
        exact List.append_cancel_left h2
      · cases h1

/-- C6: dependency resolution cannot run out of fuel when the fuel
exceeds the number of findable names not yet in the map — a name already
present is never re-resolved, so each level of recursion strictly
shrinks that finite set (this is what makes reference cycles safe); and
for the concrete two-template cycle (`"A"` references `"B"`, `"B"`
references `"A"`) resolution succeeds with a dependency set holding
`"A"` and `"B"` exactly once each. -/
theorem C6_resolution_terminates :
    (∀ (S : Finset Str) (th : ThemeR),
        (∀ name r m, th.find name = (.ok r, m) → name ∈ S) →
        ∀ fuel data name, (unresolved S data).card < fuel →
          (findByName fuel th data name).isSome = true)
    ∧ findByName 10 thCycle [] (s2l "A")
        = some ([(s2l "B", newTemplate (s2l "t") (s2l "B") (s2l "\x7b\x7btemplate \"A\"\x7d\x7dy")),
                 (s2l "A", newTemplate (s2l "t") (s2l "A") (s2l "x\x7b\x7btemplate \"B\"\x7d\x7d"))],
            none, 2) := by
  constructor
  · intro S th hS fuel data name h
    exact (resolution_total S th hS fuel).1 data name h
  · decide

/-- Witness for C6: the termination bound applied to the concrete cycle
theme with `S = {"A", "B"}` and fuel `3 > 2` unresolved names. -/
theorem C6_resolution_terminates_witness :
    (findByName 3 thCycle [] (s2l "A")).isSome = true :=
  C6_resolution_terminates.1 {s2l "A", s2l "B"} thCycle
    (fun name r m h => by
      rcases thCycle_find_names name r m h with rfl | rfl
      · exact Finset.mem_insert_self _ _
      · exact Finset.mem_insert_of_mem (Finset.mem_singleton_self _))
    3 [] (s2l "A") (by decide)

/-! ## The root's path chase never misses (C9)

The declared-path ancestors of the record being resolved are mandatory
and resolved before any reference, so every key the assembler's chase
(started at the requested root) looks up is present in the final map —
even though the map as a whole need not be path-closed (a swallowed
reference subtree can leave a record whose path ancestor is absent). -/

/-- `ChainOk data po R`: any missing lookup of the chase from `R` can
only be at the pending key `po` (`none` = the chase never misses). -/
def ChainOk (data : DepMap) (po : Option Str) (R : Tmpl) : Prop :=
  ∀ fuel k, chase fuel data R = .missing k → po = some k

theorem lookupD_cons_self {β : Type} (k : Str) (v : β) (l : List (Str × β)) :
    lookupD ((k, v) :: l) k = some v := by
  rw [lookupD, if_pos rfl]

theorem lookupD_cons_none_elim {β : Type} (k0 x : Str) (v0 : β)
    (l : List (Str × β)) (h : lookupD ((k0, v0) :: l) x = none) :
    x ≠ k0 ∧ lookupD l x = none := by
  rw [lookupD] at h
  by_cases hx : x = k0
  · rw [if_pos hx] at h; cases h
  · rw [if_neg hx] at h; exact ⟨hx, h⟩

/-- A missing chase outcome names a key absent from the map. -/
theorem chase_missing_lookup_none (fuel : Nat) (data : DepMap) (R : Tmpl)
    (k : Str) (h : chase fuel data R = .missing k) :
    lookupD data k = none := by
  induction fuel generalizing R with
  | zero => rw [chase] at h; cases h
  | succ fuel ih =>
    rw [chase] at h
    by_cases hrp : R.path = R.name
    · rw [if_pos hrp] at h; cases h
    · rw [if_neg hrp] at h
      rcases hl : lookupD data R.path with _ | R2 <;> rw [hl] at h
      · cases h; exact hl
      · exact ih R2 h

/-- A record that is its own chain top never produces a missing chase. -/
theorem chainOk_selfdone (data : DepMap) (po : Option Str) (R : Tmpl)
    (h : R.path = R.name) : ChainOk data po R := by
  intro fuel k hch
  cases fuel with
  | zero => rw [chase] at hch; cases hch
  | succ fuel => rw [chase, if_pos h] at hch; cases hch

/-- Prepending a resolved step preserves `ChainOk`. -/
theorem chainOk_cons_step (data : DepMap) (po : Option Str) (R R2 : Tmpl)
    (hrp : R.path ≠ R.name) (hl : lookupD data R.path = some R2)
    (h2 : ChainOk data po R2) : ChainOk data po R := by
  intro fuel k hch
  cases fuel with
  | zero => rw [chase] at hch; cases hch
  | succ fuel =>
    rw [chase, if_neg hrp, hl] at hch
    exact h2 fuel k hch

/-- A pending key that is in fact present upgrades `ChainOk` to a
never-missing chase. -/
theorem chainOk_upgrade (data : DepMap) (p : Str) (R Rp : Tmpl)
    (hp : lookupD data p = some Rp) (h : ChainOk data (some p) R) :
    ChainOk data none R := by
  intro fuel k hch
  have hpk : p = k := Option.some.inj (h fuel k hch)
  rw [hpk] at hp
  rw [chase_missing_lookup_none fuel data R k hch] at hp
  cases hp

/-- A never-missing chase stays never-missing when the map grows
(bindings are never replaced, only fresh keys added). -/
theorem chainOk_mono_none (data data' : DepMap)
    (hsub : ∀ k v, lookupD data k = some v → lookupD data' k = some v) :
    ∀ R, ChainOk data none R → ChainOk data' none R := by
  suffices h : ∀ fuel R, ChainOk data none R →
      ∀ k, ¬(chase fuel data' R = .missing k) by
    intro R hR fuel k hch
    exact absurd hch (h fuel R hR k)
  intro fuel
  induction fuel with
  | zero => intro R hR k hch; rw [chase] at hch; cases hch
  | succ fuel ihf =>
    intro R hR k hch
    rw [chase] at hch
    by_cases hrp : R.path = R.name
    · rw [if_pos hrp] at hch; cases hch
    · rw [if_neg hrp] at hch
      rcases hdd : lookupD data R.path with _ | R2'
      · have h1 : chase 1 data R = .missing R.path := by
          rw [chase, if_neg hrp, hdd]
        have := hR 1 R.path h1
        cases this
      · have hl : lookupD data' R.path = some R2' := hsub _ _ hdd
        rw [hl] at hch
        have hR2 : ChainOk data none R2' := fun f k2 hf =>
          hR (f + 1) k2 (by rw [chase, if_neg hrp, hdd]; exact hf)
        exact ihf R2' hR2 k hch

/-- Inserting the record currently being processed: every record already
in the map, and the new record itself, can now miss only at the new
record's declared path. -/
theorem chainOk_insert (data : DepMap) (name : Str) (Rn : Tmpl)
    (hlk : lookupD data name = none) (hpn : Rn.path ≠ Rn.name)
    (H : ∀ k R, lookupD data k = some R → ChainOk data (some name) R) :
    ∀ R, (R = Rn ∨ ∃ k0, lookupD data k0 = some R) →
      ChainOk ((name, Rn) :: data) (some Rn.path) R := by
  suffices h : ∀ fuel R, (R = Rn ∨ ∃ k0, lookupD data k0 = some R) →
      ∀ k, chase fuel ((name, Rn) :: data) R = .missing k → Rn.path = k by
    intro R hR fuel k hch
    exact congrArg some (h fuel R hR k hch)
  intro fuel
  induction fuel with
  | zero => intro R hR k hch; rw [chase] at hch; cases hch
  | succ fuel ihf =>
    intro R hR k hch
    rw [chase] at hch
    by_cases hrp : R.path = R.name
    · rw [if_pos hrp] at hch; cases hch
    · rw [if_neg hrp] at hch
      rcases hl1 : lookupD ((name, Rn) :: data) R.path with _ | R2 <;>
        rw [hl1] at hch
      · cases hch
        obtain ⟨hne, hdn⟩ := lookupD_cons_none_elim name R.path Rn data hl1
        rcases hR with rfl | ⟨k0, hk0⟩
        · rfl
        · exfalso
          have h1 : chase 1 data R = .missing R.path := by
            rw [chase, if_neg hrp, hdn]
          exact hne (Option.some.inj (H k0 R hk0 1 R.path h1)).symm
      · rw [lookupD] at hl1
        by_cases hpn2 : R.path = name
        · rw [if_pos hpn2] at hl1
          obtain rfl : Rn = R2 := Option.some.inj hl1
          exact ihf _ (Or.inl rfl) k hch
        · rw [if_neg hpn2] at hl1
          exact ihf R2 (Or.inr ⟨R.path, hl1⟩) k hch

/-- Main spine invariant: a successful `findByName` leaves, under the
requested name, a record whose path chase in the final map never looks
up an absent key — provided every record already in the map could miss
only at the requested name. -/
theorem findByName_chainOk :
    ∀ (fuel : Nat) (th : ThemeR) (data : DepMap) (name : Str)
      (data' : DepMap) (n : Nat),
      findByName fuel th data name = some (data', none, n) →
      (∀ k R, lookupD data k = some R → ChainOk data (some name) R) →
      ∃ Rn, lookupD data' name = some Rn ∧ ChainOk data' none Rn := by
  intro fuel
  induction fuel with
  | zero => intro th data name data' n h H; rw [findByName] at h; cases h
  | succ fuel ih =>
    intro th data name data' n h H
    rcases hlk : lookupD data name with _ | Rn0
    · rcases hfind : th.find name with ⟨res, m⟩
      rcases res with e | dep
      · rw [findByName_succ_err fuel th data name e m hlk hfind] at h
        obtain ⟨-, he, -⟩ : data = data' ∧ (some e : Option GoErr) = none ∧ m = n := by
          simpa using h
        cases he
      · rw [findByName_succ_ok fuel th data name dep m hlk hfind] at h
        rcases hbt : findByTemplateF (findByName fuel th) ((name, dep) :: data) dep
          with _ | ⟨d2, err2, n2⟩ <;> rw [hbt] at h
        · cases h
        · obtain ⟨heq, herr, -⟩ : data' = d2 ∧ (none : Option GoErr) = err2 ∧
              n = m + n2 := by simpa using h.symm
          subst heq
          rw [← herr] at hbt
          by_cases hdp : dep.path = dep.name
          · rw [findByTemplateF_nopath _ _ _ hdp] at hbt
            have hgrow : ∀ k v, lookupD ((name, dep) :: data) k = some v →
                lookupD data' k = some v :=
              findRefsF_grow _ (findByName_grow fuel th) _ _ _ _ _ hbt
            exact ⟨dep, hgrow name dep (lookupD_cons_self name dep data),
              chainOk_selfdone data' none dep hdp⟩
          · rw [findByTemplateF_path _ _ _ hdp] at hbt
            rcases hp1 : findByName fuel th ((name, dep) :: data) dep.path with
              _ | ⟨d1, err1, n1⟩ <;> rw [hp1] at hbt
            · cases hbt
            · rcases err1 with _ | e1
              · have hbt2 : (match findRefsF (findByName fuel th) d1
                      (templateRefs dep.content) with
                    | none => none
                    | some (d2, err, n2) => some (d2, err, n1 + n2))
                    = some (data', (none : Option GoErr), n2) := hbt
                rcases hrf : findRefsF (findByName fuel th) d1
                    (templateRefs dep.content) with _ | ⟨d2', err2', n2'⟩ <;>
                  rw [hrf] at hbt2
                · cases hbt2
                · obtain ⟨heq2, herr2, -⟩ : data' = d2' ∧
                      (none : Option GoErr) = err2' ∧ n2 = n1 + n2' := by
                    simpa using hbt2.symm
                  subst heq2
                  rw [← herr2] at hrf
                  have H1 : ∀ k R, lookupD ((name, dep) :: data) k = some R →
                      ChainOk ((name, dep) :: data) (some dep.path) R := by
                    intro k R hkR
                    apply chainOk_insert data name dep hlk hdp H
                    rw [lookupD] at hkR
                    by_cases hkn : k = name
                    · rw [if_pos hkn] at hkR
                      exact Or.inl (Option.some.inj hkR).symm
                    · rw [if_neg hkn] at hkR
                      exact Or.inr ⟨k, hkR⟩
                  obtain ⟨Rp, hRp, hRpOk⟩ :=
                    ih th ((name, dep) :: data) dep.path d1 n1 hp1 H1
                  have hdep1 : lookupD d1 name = some dep :=
                    findByName_grow fuel th _ _ _ _ _ hp1 name dep
                      (lookupD_cons_self name dep data)
                  have hchaindep : ChainOk d1 none dep :=
                    chainOk_cons_step d1 none dep Rp hdp hRp hRpOk
                  have hgrow2 : ∀ k v, lookupD d1 k = some v →
                      lookupD data' k = some v :=
                    findRefsF_grow _ (findByName_grow fuel th) _ _ _ _ _ hrf
                  exact ⟨dep, hgrow2 name dep hdep1,
                    chainOk_mono_none d1 data' hgrow2 dep hchaindep⟩
              · have hctr : (some (d1, some e1, n1) : Option RRes)
                    = some (data', (none : Option GoErr), n2) := hbt
                obtain ⟨-, hx, -⟩ : d1 = data' ∧ (some e1 : Option GoErr) = none ∧
                    n1 = n2 := by simpa using hctr
                cases hx
    · rw [findByName_succ_memo fuel th data name Rn0 hlk] at h
      obtain ⟨rfl, -, -⟩ : data = data' ∧ (none : Option GoErr) = none ∧ 0 = n := by
        simpa using h
      exact ⟨Rn0, hlk, chainOk_upgrade data name Rn0 Rn0 hlk (H name Rn0 hlk)⟩

/-- C9 (amended): after any successful resolution pass started from an
empty map, the record stored under the requested root name has a path
chase that never looks up a key absent from the returned set — the
assembler's chase is safe for the requested root, even though the set
as a whole need not be path-closed. -/
theorem C9_root_chase_never_missing (fuel : Nat) (th : ThemeR) (name : Str)
    (data' : DepMap) (n : Nat)
    (h : findByName fuel th [] name = some (data', none, n)) :
    ∃ Rn, lookupD data' name = some Rn ∧
      ∀ fuelC k, chase fuelC data' Rn ≠ .missing k := by
  obtain ⟨Rn, h1, h2⟩ := findByName_chainOk fuel th [] name data' n h
    (by intro k R hk; rw [lookupD] at hk; cases hk)
  refine ⟨Rn, h1, fun fuelC k hch => ?_⟩
  cases h2 fuelC k hch

/-- Theme `"t"` in which the root `"R"` merely references `"X"`, while
`"X"` declares the absent path ancestor `"P"` — the NotFound for `"P"`
is swallowed because `"X"` is only referenced. -/
def thSwallow : ThemeR :=
  .mk (s2l "t")
    (memStorage
      [ (s2l "tR", newTemplate (s2l "t") (s2l "R") (s2l "\x7b\x7btemplate \"X\"\x7d\x7d")),
        (s2l "tX", newTemplate (s2l "t") (s2l "X") (s2l "<!-- P -->hi"))])
    none

/-- Witness for C9 (amended): the safe-chase guarantee applied to the
swallowed-subtree scenario. -/
theorem C9_root_chase_never_missing_witness :
    ∃ Rn, lookupD
        [ (s2l "X", newTemplate (s2l "t") (s2l "X") (s2l "<!-- P -->hi")),
          (s2l "R", newTemplate (s2l "t") (s2l "R") (s2l "\x7b\x7btemplate \"X\"\x7d\x7d"))]
        (s2l "R") = some Rn ∧
      ∀ fuelC k, chase fuelC
        [ (s2l "X", newTemplate (s2l "t") (s2l "X") (s2l "<!-- P -->hi")),
          (s2l "R", newTemplate (s2l "t") (s2l "R") (s2l "\x7b\x7btemplate \"X\"\x7d\x7d"))]
        Rn ≠ .missing k :=
  C9_root_chase_never_missing 10 thSwallow (s2l "R")
    [ (s2l "X", newTemplate (s2l "t") (s2l "X") (s2l "<!-- P -->hi")),
      (s2l "R", newTemplate (s2l "t") (s2l "R") (s2l "\x7b\x7btemplate \"X\"\x7d\x7d"))]
    3 (by decide)

/-- Counterexample to C9 as stated: a successful resolution pass whose
returned set is not path-closed — the record under `"X"` declares path
`"P"`, but no record is present under key `"P"`. -/
theorem C9_counterexample :
    findByName 10 thSwallow [] (s2l "R")
        = some ([ (s2l "X", newTemplate (s2l "t") (s2l "X") (s2l "<!-- P -->hi")),
                  (s2l "R", newTemplate (s2l "t") (s2l "R") (s2l "\x7b\x7btemplate \"X\"\x7d\x7d"))],
            none, 3)
      ∧ (newTemplate (s2l "t") (s2l "X") (s2l "<!-- P -->hi")).path = s2l "P"
      ∧ (newTemplate (s2l "t") (s2l "X") (s2l "<!-- P -->hi")).path
          ≠ (newTemplate (s2l "t") (s2l "X") (s2l "<!-- P -->hi")).name
      ∧ lookupD
          [ (s2l "X", newTemplate (s2l "t") (s2l "X") (s2l "<!-- P -->hi")),
            (s2l "R", newTemplate (s2l "t") (s2l "R") (s2l "\x7b\x7btemplate \"X\"\x7d\x7d"))]
          (s2l "P") = none := by
  refine ⟨by decide, by decide, by decide, by decide⟩

/-! ## The mutable theme graph (`SetDebug`/`SetFuncMap`/`SetParent`/`Clear`)

Themes form a graph of mutable states linked by parent pointers.  A
world is a list of theme states addressed by index; compiled units and
function values are opaque type parameters.  The parent cascade of
`reset` recurses along parent links, so the operations carry fuel
(`none` = the Go recursion would not terminate, e.g. on a parent
cycle);  each parent hop consumes one unit of fuel. -/

structure ThemeSt (V F : Type) where
  cache : List (Str × V)
  funcs : List (Str × F)
  debug : Bool
  parent : Option Nat
deriving DecidableEq, Repr

abbrev World (V F : Type) := List (ThemeSt V F)

def getTheme {V F : Type} (w : World V F) (i : Nat) : Option (ThemeSt V F) :=
  w[i]?

def setTheme {V F : Type} (w : World V F) (i : Nat) (st : ThemeSt V F) :
    World V F :=
  w.set i st

/-- `sync.Map.Store` over every entry of the given registry (Go map
iteration is unordered; with the distinct keys of a Go map any order
yields the same mapping). -/
def storeAll {β : Type} (m : List (Str × β)) (base : List (Str × β)) :
    List (Str × β) :=
  m.foldr (fun kv acc => insertA kv.1 kv.2 acc) base

/-- `Theme.reset`: clear the own cache; if a parent is set, push the own
function registry (`SetFuncMap`) and debug flag (`SetDebug`) onto it. -/
def resetW {V F : Type} : Nat → World V F → Nat → Option (World V F)
  | 0, _, _ => none
  | fuel + 1, w, i =>
    match getTheme w i with
    | none => none
    | some st =>
      let w1 := setTheme w i { st with cache := [] }
      match st.parent with
      | none => some w1
      | some p =>
        match (match getTheme w1 p with
          | none => none
          | some stp =>
            resetW fuel (setTheme w1 p { stp with funcs := storeAll st.funcs [] }) p) with
        | none => none
        | some w2 =>
          match getTheme w2 p with
          | none => none
          | some stp2 =>
            if stp2.debug = st.debug then some w2
            else resetW fuel (setTheme w2 p { stp2 with debug := st.debug }) p

/-- `Theme.SetFuncMap`: replace the registry (`Clear` + `Store` of every
entry), then `reset`. -/
def setFuncMapW {V F : Type} (fuel : Nat) (w : World V F) (i : Nat)
    (fm : List (Str × F)) : Option (World V F) :=
  match getTheme w i with
  | none => none
  | some st => resetW fuel (setTheme w i { st with funcs := storeAll fm [] }) i

/-- `Theme.AddFuncMap`: merge the entries into the registry, then
`reset`. -/
def addFuncMapW {V F : Type} (fuel : Nat) (w : World V F) (i : Nat)
    (fm : List (Str × F)) : Option (World V F) :=
  match getTheme w i with
  | none => none
  | some st => resetW fuel (setTheme w i { st with funcs := storeAll fm st.funcs }) i

/-- `Theme.SetDebug`: a no-op when the flag does not change; otherwise
store it and `reset`. -/
def setDebugW {V F : Type} (fuel : Nat) (w : World V F) (i : Nat) (b : Bool) :
    Option (World V F) :=
  match getTheme w i with
  | none => none
  | some st =>
    if st.debug = b then some w
    else resetW fuel (setTheme w i { st with debug := b }) i

/-- `Theme.SetParent`: store the parent link, then `reset`. -/
def setParentW {V F : Type} (fuel : Nat) (w : World V F) (i : Nat)
    (p : Option Nat) : Option (World V F) :=
  match getTheme w i with
  | none => none
  | some st => resetW fuel (setTheme w i { st with parent := p }) i

/-- `Theme.Clear` just calls `reset`. -/
def clearW {V F : Type} (fuel : Nat) (w : World V F) (i : Nat) :
    Option (World V F) :=
  resetW fuel w i

/-- The strict ancestor chain of a theme: successive parent links ending
at a parentless theme. -/
def chainOf {V F : Type} (w : World V F) : Nat → List Nat → Prop
  | i, [] => ∃ st, getTheme w i = some st ∧ st.parent = none
  | i, p :: rest =>
    ∃ st, getTheme w i = some st ∧ st.parent = some p ∧ chainOf w p rest

theorem getTheme_some_lt {V F : Type} (w : World V F) (i : Nat)
    (st : ThemeSt V F) (h : getTheme w i = some st) : i < w.length := by
  by_contra hlt
  rw [getTheme, List.getElem?_eq_none (by omega)] at h
  cases h

theorem getTheme_setTheme_self {V F : Type} (w : World V F) (i : Nat)
    (st : ThemeSt V F) (h : i < w.length) :
    getTheme (setTheme w i st) i = some st :=
  List.getElem?_set_eq_of_lt st h

theorem getTheme_setTheme_ne {V F : Type} (w : World V F) (i j : Nat)
    (st : ThemeSt V F) (h : j ≠ i) :
    getTheme (setTheme w i st) j = getTheme w j := by
  rw [getTheme, getTheme, setTheme, List.getElem?_set_ne (fun hc => h hc.symm)]

theorem lookupD_storeAll_nil {β : Type} (m : List (Str × β)) (k : Str) :
    lookupD (storeAll m []) k = lookupD m k := by
  induction m with
  | nil => rfl
  | cons kv rest ih =>
    obtain ⟨k1, v1⟩ := kv
    show lookupD (insertA k1 v1 (storeAll rest [])) k = _
    rw [lookupD_insertA, lookupD]
    by_cases hk : k = k1
    · rw [if_pos hk, if_pos hk]
    · rw [if_neg hk, if_neg hk, ih]

theorem chainOf_congr {V F : Type} (w w' : World V F)
    (h : ∀ j, (getTheme w' j).map ThemeSt.parent
      = (getTheme w j).map ThemeSt.parent) :
    ∀ i L, chainOf w i L → chainOf w' i L := by
  intro i L
  induction L generalizing i with
  | nil =>
    rintro ⟨st, hst, hp⟩
    have hj := h i
    rw [hst] at hj
    rcases hg : getTheme w' i with _ | st' <;> rw [hg] at hj
    · cases hj
    · exact ⟨st', hg, by
        have : st'.parent = st.parent := by simpa using hj
        rw [this, hp]⟩
  | cons p rest ih =>
    rintro ⟨st, hst, hp, hrest⟩
    have hj := h i
    rw [hst] at hj
    rcases hg : getTheme w' i with _ | st' <;> rw [hg] at hj
    · cases hj
    · refine ⟨st', hg, ?_, ih p hrest⟩
      have : st'.parent = st.parent := by simpa using hj
      rw [this, hp]

theorem chainOf_head {V F : Type} (w : World V F) (p : Nat) (rest : List Nat)
    (h : chainOf w p rest) : ∃ st, getTheme w p = some st := by
  rcases rest with _ | ⟨q, rest⟩
  · obtain ⟨st, hst, -⟩ := h; exact ⟨st, hst⟩
  · obtain ⟨st, hst, -, -⟩ := h; exact ⟨st, hst⟩

theorem resetW_succ_noparent {V F : Type} (fuel : Nat) (w : World V F)
    (i : Nat) (st : ThemeSt V F) (h : getTheme w i = some st)
    (hp : st.parent = none) :
    resetW (fuel + 1) w i = some (setTheme w i { st with cache := [] }) := by
  simp only [resetW, h, hp]

theorem resetW_succ_parent {V F : Type} (fuel : Nat) (w : World V F)
    (i p : Nat) (st : ThemeSt V F) (h : getTheme w i = some st)
    (hp : st.parent = some p) :
    resetW (fuel + 1) w i
      = (match setFuncMapW fuel (setTheme w i { st with cache := [] }) p
            st.funcs with
        | none => none
        | some w2 => setDebugW fuel w2 p st.debug) := by
  simp only [resetW, h, hp]
  rfl

theorem setFuncMapW_eq {V F : Type} (fuel : Nat) (w : World V F) (i : Nat)
    (sti : ThemeSt V F) (fm : List (Str × F)) (h : getTheme w i = some sti) :
    setFuncMapW fuel w i fm
      = resetW fuel (setTheme w i { sti with funcs := storeAll fm [] }) i := by
  rw [setFuncMapW, h]

theorem setDebugW_eq_noop {V F : Type} (fuel : Nat) (w : World V F) (i : Nat)
    (sti : ThemeSt V F) (b : Bool) (h : getTheme w i = some sti)
    (hdb : sti.debug = b) : setDebugW fuel w i b = some w := by
  rw [setDebugW, h]
  simp only [hdb, if_true]

theorem setDebugW_eq_store {V F : Type} (fuel : Nat) (w : World V F) (i : Nat)
    (sti : ThemeSt V F) (b : Bool) (h : getTheme w i = some sti)
    (hdb : ¬sti.debug = b) :
    setDebugW fuel w i b
      = resetW fuel (setTheme w i { sti with debug := b }) i := by
  rw [setDebugW, h]
  simp only [hdb, if_false]

/-- The parent cascade, fully characterised: with fuel exceeding the
ancestor-chain length, `reset` / `SetFuncMap` / `SetDebug` succeed,
touch only the theme and its ancestors, clear every touched cache, and
push the funcs/debug configuration up the whole chain. -/
theorem cascade_spec {V F : Type} :
    ∀ (fuel : Nat) (w : World V F) (i : Nat) (L : List Nat)
      (sti : ThemeSt V F),
      chainOf w i L → (i :: L).Nodup → L.length + 1 ≤ fuel →
      getTheme w i = some sti →
      ((∃ w', resetW fuel w i = some w' ∧
          (∀ j, j ∉ i :: L → getTheme w' j = getTheme w j) ∧
          getTheme w' i = some { sti with cache := [] } ∧
          (∀ a ∈ L, ∃ sta sta', getTheme w a = some sta ∧
            getTheme w' a = some sta' ∧ sta'.cache = [] ∧
            sta'.parent = sta.parent ∧ sta'.debug = sti.debug ∧
            (∀ k, lookupD sta'.funcs k = lookupD sti.funcs k)))
      ∧ (∀ fm, ∃ w', setFuncMapW fuel w i fm = some w' ∧
          (∀ j, j ∉ i :: L → getTheme w' j = getTheme w j) ∧
          getTheme w' i = some ⟨[], storeAll fm [], sti.debug, sti.parent⟩ ∧
          (∀ a ∈ L, ∃ sta sta', getTheme w a = some sta ∧
            getTheme w' a = some sta' ∧ sta'.cache = [] ∧
            sta'.parent = sta.parent ∧ sta'.debug = sti.debug ∧
            (∀ k, lookupD sta'.funcs k = lookupD fm k)))
      ∧ (∀ b, ∃ w', setDebugW fuel w i b = some w' ∧
          (sti.debug = b → w' = w) ∧
          (sti.debug ≠ b →
            (∀ j, j ∉ i :: L → getTheme w' j = getTheme w j) ∧
            getTheme w' i = some ⟨[], sti.funcs, b, sti.parent⟩ ∧
            (∀ a ∈ L, ∃ sta sta', getTheme w a = some sta ∧
              getTheme w' a = some sta' ∧ sta'.cache = [] ∧
              sta'.parent = sta.parent ∧ sta'.debug = b ∧
              (∀ k, lookupD sta'.funcs k = lookupD sti.funcs k))))) := by
  intro fuel
  induction fuel with
  | zero =>
    intro w i L sti hch hnd hfl hsti
    exact absurd hfl (by omega)
  | succ fuel ih =>
    have Rall : ∀ (w : World V F) (i : Nat) (L : List Nat) (sti : ThemeSt V F),
        chainOf w i L → (i :: L).Nodup → L.length + 1 ≤ fuel + 1 →
        getTheme w i = some sti →
        ∃ w', resetW (fuel + 1) w i = some w' ∧
          (∀ j, j ∉ i :: L → getTheme w' j = getTheme w j) ∧
          getTheme w' i = some { sti with cache := [] } ∧
          (∀ a ∈ L, ∃ sta sta', getTheme w a = some sta ∧
            getTheme w' a = some sta' ∧ sta'.cache = [] ∧
            sta'.parent = sta.parent ∧ sta'.debug = sti.debug ∧
            (∀ k, lookupD sta'.funcs k = lookupD sti.funcs k)) := by
      intro w i L sti hch hnd hfl hsti
      have hilen : i < w.length := getTheme_some_lt w i sti hsti
      rcases L with _ | ⟨p, rest⟩
      · obtain ⟨st0, hst0, hp0⟩ := hch
        obtain rfl : sti = st0 := Option.some.inj (hsti.symm.trans hst0)
        refine ⟨setTheme w i { sti with cache := [] },
          resetW_succ_noparent fuel w i sti hsti hp0, ?_, ?_, ?_⟩
        · intro j hj
          exact getTheme_setTheme_ne w i j _ (by simpa using hj)
        · exact getTheme_setTheme_self w i _ hilen
        · intro a ha
          cases ha
      · obtain ⟨st0, hst0, hp0, hrest⟩ := hch
        obtain rfl : sti = st0 := Option.some.inj (hsti.symm.trans hst0)
        obtain ⟨hinotin, hnd2⟩ := List.nodup_cons.1 hnd
        have hpi : p ≠ i := fun hc => hinotin (hc ▸ List.mem_cons_self p rest)
        have hw1i : getTheme (setTheme w i { sti with cache := [] }) i
            = some { sti with cache := [] } := getTheme_setTheme_self w i _ hilen
        have hw1ne : ∀ j, j ≠ i →
            getTheme (setTheme w i { sti with cache := [] }) j = getTheme w j :=
          fun j hj => getTheme_setTheme_ne w i j _ hj
        have hparw1 : ∀ j,
            (getTheme (setTheme w i { sti with cache := [] }) j).map ThemeSt.parent
              = (getTheme w j).map ThemeSt.parent := by
          intro j
          by_cases hj : j = i
          · subst hj
            rw [hw1i, hsti]
            rfl
          · rw [hw1ne j hj]
        have hchw1p : chainOf (setTheme w i { sti with cache := [] }) p rest :=
          chainOf_congr w _ hparw1 p rest hrest
        obtain ⟨stp, hstp⟩ := chainOf_head w p rest hrest
        have hstpw1 : getTheme (setTheme w i { sti with cache := [] }) p
            = some stp := (hw1ne p hpi).trans hstp
        obtain ⟨-, FM, -⟩ := ih (setTheme w i { sti with cache := [] }) p rest
          stp hchw1p hnd2 (by simp at hfl ⊢; omega) hstpw1
        obtain ⟨w2, hw2eq, U2, O2, A2⟩ := FM sti.funcs
        have hparw2 : ∀ j, (getTheme w2 j).map ThemeSt.parent
            = (getTheme (setTheme w i { sti with cache := [] }) j).map
                ThemeSt.parent := by
          intro j
          by_cases hjp : j = p
          · subst hjp
            rw [O2, hstpw1]
            rfl
          · by_cases hjr : j ∈ rest
            · obtain ⟨sta, sta', hsta, hsta', -, hpar, -, -⟩ := A2 j hjr
              rw [hsta', hsta]
              simp [hpar]
            · rw [U2 j (by
                intro hc
                rcases List.mem_cons.1 hc with rfl | hc2
                · exact hjp rfl
                · exact hjr hc2)]
        have hchw2p : chainOf w2 p rest :=
          chainOf_congr _ w2 hparw2 p rest hchw1p
        obtain ⟨-, -, D⟩ := ih w2 p rest
          ⟨[], storeAll sti.funcs [], stp.debug, stp.parent⟩ hchw2p hnd2
          (by simp at hfl ⊢; omega) O2
        obtain ⟨w3, hw3eq, hDeq, hDne⟩ := D sti.debug
        have hreseq : resetW (fuel + 1) w i = some w3 := by
          rw [resetW_succ_parent fuel w i p sti hsti hp0, hw2eq]
          exact hw3eq
        have hirest : ∀ a, a ∈ p :: rest → a ≠ i := by
          intro a ha hc
          exact hinotin (hc ▸ ha)
        by_cases hdb : stp.debug = sti.debug
        · obtain rfl : w3 = w2 := hDeq hdb
          refine ⟨w3, hreseq, ?_, ?_, ?_⟩
          · intro j hj
            have hj1 : j ≠ i := by simp at hj; tauto
            have hj2 : j ∉ p :: rest := by simp at hj ⊢; tauto
            rw [U2 j hj2, hw1ne j hj1]
          · rw [U2 i hinotin, hw1i]
          · intro a ha
            rcases List.mem_cons.1 ha with rfl | hmem
            · exact ⟨stp, ⟨[], storeAll sti.funcs [], stp.debug, stp.parent⟩,
                hstp, O2, rfl, rfl, hdb,
                fun k => lookupD_storeAll_nil sti.funcs k⟩
            · obtain ⟨sta, sta', hsta, hsta', hc, hpar, hdbg, hfun⟩ := A2 a hmem
              exact ⟨sta, sta', (hw1ne a (hirest a ha)).symm.trans hsta, hsta',
                hc, hpar, hdbg.trans hdb, hfun⟩
        · obtain ⟨U3, O3, A3⟩ := hDne hdb
          refine ⟨w3, hreseq, ?_, ?_, ?_⟩
          · intro j hj
            have hj1 : j ≠ i := by simp at hj; tauto
            have hj2 : j ∉ p :: rest := by simp at hj ⊢; tauto
            rw [U3 j hj2, U2 j hj2, hw1ne j hj1]
          · rw [U3 i hinotin, U2 i hinotin, hw1i]
          · intro a ha
            rcases List.mem_cons.1 ha with rfl | hmem
            · exact ⟨stp, ⟨[], storeAll sti.funcs [], sti.debug, stp.parent⟩,
                hstp, O3, rfl, rfl, rfl,
                fun k => lookupD_storeAll_nil sti.funcs k⟩
            · obtain ⟨sta, sta2, hsta, hsta2, hc2, hpar2, hdbg2, hfun2⟩ :=
                A2 a hmem
              obtain ⟨sta2', sta3, hsta2', hsta3, hc3, hpar3, hdbg3, hfun3⟩ :=
                A3 a hmem
              obtain rfl : sta2' = sta2 :=
                Option.some.inj (hsta2'.symm.trans hsta2)
              refine ⟨sta, sta3, (hw1ne a (hirest a ha)).symm.trans hsta,
                hsta3, hc3, hpar3.trans hpar2, hdbg3, ?_⟩
              intro k
              rw [hfun3 k]
              exact lookupD_storeAll_nil sti.funcs k
    intro w i L sti hch hnd hfl hsti
    have hilen : i < w.length := getTheme_some_lt w i sti hsti
    have hparpres : ∀ (st1 : ThemeSt V F), st1.parent = sti.parent → ∀ j,
        (getTheme (setTheme w i st1) j).map ThemeSt.parent
          = (getTheme w j).map ThemeSt.parent := by
      intro st1 hpp j
      by_cases hj : j = i
      · subst hj
        rw [getTheme_setTheme_self w j st1 hilen, hsti]
        simp [hpp]
      · rw [getTheme_setTheme_ne w i j st1 hj]
    refine ⟨Rall w i L sti hch hnd hfl hsti, ?_, ?_⟩
    · intro fm
      have hch1 : chainOf (setTheme w i { sti with funcs := storeAll fm [] }) i L :=
        chainOf_congr w _ (hparpres { sti with funcs := storeAll fm [] } rfl) i L hch
      obtain ⟨w', hw'eq, U1, O1, A1⟩ := Rall _ i L
        { sti with funcs := storeAll fm [] } hch1 hnd hfl
        (getTheme_setTheme_self w i _ hilen)
      refine ⟨w', (setFuncMapW_eq (fuel + 1) w i sti fm hsti).trans hw'eq,
        ?_, O1, ?_⟩
      · intro j hj
        have hj1 : j ≠ i := by simp at hj; tauto
        rw [U1 j hj, getTheme_setTheme_ne w i j _ hj1]
      · intro a ha
        obtain ⟨sta, sta', hsta, hsta', hc, hpar, hdbg, hfun⟩ := A1 a ha
        have hai : a ≠ i := by
          intro hc2
          exact (List.nodup_cons.1 hnd).1 (hc2 ▸ ha)
        refine ⟨sta, sta',
          (getTheme_setTheme_ne w i a _ hai).symm.trans hsta, hsta',
          hc, hpar, hdbg, ?_⟩
        intro k
        rw [hfun k]
        exact lookupD_storeAll_nil fm k
    · intro b
      by_cases hdb : sti.debug = b
      · exact ⟨w, setDebugW_eq_noop (fuel + 1) w i sti b hsti hdb,
          fun _ => rfl, fun hne => absurd hdb hne⟩
      · have hch1 : chainOf (setTheme w i { sti with debug := b }) i L :=
          chainOf_congr w _ (hparpres { sti with debug := b } rfl) i L hch
        obtain ⟨w', hw'eq, U1, O1, A1⟩ := Rall _ i L
          { sti with debug := b } hch1 hnd hfl
          (getTheme_setTheme_self w i _ hilen)
        refine ⟨w', (setDebugW_eq_store (fuel + 1) w i sti b hsti hdb).trans
          hw'eq, fun hc => absurd hc hdb, fun _ => ⟨?_, O1, ?_⟩⟩
        · intro j hj
          have hj1 : j ≠ i := by simp at hj; tauto
          rw [U1 j hj, getTheme_setTheme_ne w i j _ hj1]
        · intro a ha
          obtain ⟨sta, sta', hsta, hsta', hc, hpar, hdbg, hfun⟩ := A1 a ha
          have hai : a ≠ i := by
            intro hc2
            exact (List.nodup_cons.1 hnd).1 (hc2 ▸ ha)
          exact ⟨sta, sta',
            (getTheme_setTheme_ne w i a _ hai).symm.trans hsta, hsta',
            hc, hpar, hdbg, hfun⟩

/-- C7 (amended): configuration cascades from child through every
ancestor: `SetFuncMap(F)` replaces the function registry of the theme
and of every ancestor with exactly `F` (overwriting, not merging), and
`SetDebug(true)` pushes `true` onto every ancestor *when the child's
flag actually changes* (`SetDebug` returns without cascading when the
new value equals the current one). -/
theorem C7_config_cascade {V F : Type} (fuel : Nat) (w : World V F)
    (i : Nat) (L : List Nat) (sti : ThemeSt V F) (hch : chainOf w i L)
    (hnd : (i :: L).Nodup) (hfl : L.length + 1 ≤ fuel)
    (hsti : getTheme w i = some sti) :
    (∀ fm, ∃ w', setFuncMapW fuel w i fm = some w' ∧
        ∀ a ∈ i :: L, ∃ sta', getTheme w' a = some sta' ∧
          ∀ k, lookupD sta'.funcs k = lookupD fm k)
    ∧ (sti.debug = false →
        ∃ w', setDebugW fuel w i true = some w' ∧
          ∀ a ∈ i :: L, ∃ sta', getTheme w' a = some sta' ∧
            sta'.debug = true) := by
  obtain ⟨-, FM, D⟩ := cascade_spec fuel w i L sti hch hnd hfl hsti
  constructor
  · intro fm
    obtain ⟨w', heq, U, O, A⟩ := FM fm
    refine ⟨w', heq, ?_⟩
    intro a ha
    rcases List.mem_cons.1 ha with rfl | hmem
    · exact ⟨_, O, fun k => lookupD_storeAll_nil fm k⟩
    · obtain ⟨sta, sta', h1, h2, -, -, -, hfun⟩ := A a hmem
      exact ⟨sta', h2, hfun⟩
  · intro hdf
    obtain ⟨w', heq, -, hne⟩ := D true
    obtain ⟨U, O, A⟩ := hne (by rw [hdf]; exact Bool.false_ne_true)
    refine ⟨w', heq, ?_⟩
    intro a ha
    rcases List.mem_cons.1 ha with rfl | hmem
    · exact ⟨_, O, rfl⟩
    · obtain ⟨sta, sta', h1, h2, -, -, hdbg, -⟩ := A a hmem
      exact ⟨sta', h2, hdbg⟩

/-- A three-theme chain `0 → 1 → 2` (cache and function values are
opaque; `Nat` stands in for both). -/
def wChain : World Nat Nat :=
  [ ⟨[], [(s2l "f", 1)], false, some 1⟩,
    ⟨[(s2l "c", 7)], [(s2l "g", 2)], false, some 2⟩,
    ⟨[], [], true, none⟩]

/-- Witness for C7: the cascade applied to the concrete chain. -/
theorem C7_config_cascade_witness :
    (∃ w', setFuncMapW 5 wChain 0 [(s2l "u", 9)] = some w' ∧
        ∀ a ∈ [0, 1, 2], ∃ sta', getTheme w' a = some sta' ∧
          ∀ k, lookupD sta'.funcs k = lookupD [(s2l "u", 9)] k)
    ∧ (∃ w', setDebugW 5 wChain 0 true = some w' ∧
        ∀ a ∈ [0, 1, 2], ∃ sta', getTheme w' a = some sta' ∧
          sta'.debug = true) := by
  have h := C7_config_cascade 5 wChain 0 [1, 2] ⟨[], [(s2l "f", 1)], false, some 1⟩
    ⟨_, rfl, rfl, ⟨_, rfl, rfl, ⟨_, rfl, rfl⟩⟩⟩ (by decide) (by decide) rfl
  exact ⟨h.1 [(s2l "u", 9)], h.2 rfl⟩

/-- A two-theme chain in which the child's flag is already `true` while
the parent's is `false`. -/
def wNoop : World Nat Nat :=
  [ ⟨[], [], true, some 1⟩,
    ⟨[], [], false, none⟩]

/-- Counterexample to C7 as stated: `child.SetDebug(true)` with the
child already in debug mode returns without cascading, leaving the
parent's flag `false`. -/
theorem C7_counterexample :
    setDebugW 5 wNoop 0 true = some wNoop ∧
      (getTheme wNoop 1).map ThemeSt.debug = some false := by
  constructor
  · decide
  · decide

/-- C2 (amended): `Theme.Clear` (= `reset`) clears the theme's own
cache and leaves its own debug flag, function registry and parent link
unchanged; themes outside the ancestor chain are untouched — but when a
parent chain exists the call cascades exactly like any other reset: each
ancestor's cache is cleared, its registry is replaced by the clearing
theme's registry, and its debug flag is set to the clearing theme's
flag.  (With no parent, nothing but the own cache changes.) -/
theorem C2_clear_cascades {V F : Type} (fuel : Nat) (w : World V F)
    (i : Nat) (L : List Nat) (sti : ThemeSt V F) (hch : chainOf w i L)
    (hnd : (i :: L).Nodup) (hfl : L.length + 1 ≤ fuel)
    (hsti : getTheme w i = some sti) :
    ∃ w', clearW fuel w i = some w' ∧
      (∀ j, j ∉ i :: L → getTheme w' j = getTheme w j) ∧
      getTheme w' i = some { sti with cache := [] } ∧
      (∀ a ∈ L, ∃ sta sta', getTheme w a = some sta ∧
        getTheme w' a = some sta' ∧ sta'.cache = [] ∧
        sta'.parent = sta.parent ∧ sta'.debug = sti.debug ∧
        (∀ k, lookupD sta'.funcs k = lookupD sti.funcs k)) :=
  (cascade_spec fuel w i L sti hch hnd hfl hsti).1

/-- Witness for C2 (amended): clearing a parentless theme. -/
theorem C2_clear_cascades_witness :
    ∃ w', clearW 5 [(⟨[(s2l "c", 7)], [(s2l "f", 1)], true, none⟩ : ThemeSt Nat Nat)] 0
        = some w' ∧
      (∀ j, j ∉ [0] → getTheme w' j
        = getTheme [(⟨[(s2l "c", 7)], [(s2l "f", 1)], true, none⟩ : ThemeSt Nat Nat)] j) ∧
      getTheme w' 0 = some ⟨[], [(s2l "f", 1)], true, none⟩ := by
  obtain ⟨w', h1, h2, h3, -⟩ := C2_clear_cascades 5
    [(⟨[(s2l "c", 7)], [(s2l "f", 1)], true, none⟩ : ThemeSt Nat Nat)] 0 []
    ⟨[(s2l "c", 7)], [(s2l "f", 1)], true, none⟩
    ⟨_, rfl, rfl⟩ (by decide) (by decide) rfl
  exact ⟨w', h1, h2, h3⟩

/-- A two-theme chain with distinct registries, used to show that
`Clear` is not a pure cache reset. -/
def wClear : World Nat Nat :=
  [ ⟨[(s2l "c", 7)], [(s2l "f", 1)], false, some 1⟩,
    ⟨[(s2l "x", 5)], [(s2l "g", 2)], false, none⟩]

/-- Counterexample to C2 as stated: clearing the child also rewrites the
parent — its cache is cleared and its registry is replaced by the
child's. -/
theorem C2_counterexample :
    clearW 5 wClear 0
        = some [ ⟨[], [(s2l "f", 1)], false, some 1⟩,
                 ⟨[], [(s2l "f", 1)], false, none⟩] ∧
      getTheme wClear 1 ≠ some ⟨[], [(s2l "f", 1)], false, none⟩ := by
  constructor
  · decide
  · decide
